import Mathlib

/-!
Verification of the SyncFolders program (src/SyncFolders.cpp).

The program performs one-way periodic mirroring of a source directory tree
onto a replica tree.  We give a shallow embedding of its data model and of
the functions `computeFileHash`, `syncCopy`, `syncDelete`,
`syncSubdirectories`, `syncFolders`, `countFilesAndDirectories`,
`checkSyncCompletion` and of the run loop's interval accounting, and prove
the specification's claims about them.

Modelling conventions:
  * A filesystem tree is an association list from relative paths
    (lists of path components) to entries.  An entry is a regular file with
    its byte content, a directory, or an entry of any other kind
    (symbolic link, special file).  The list order is the enumeration
    order of `std::filesystem::recursive_directory_iterator`; a
    well-formed tree lists every directory before its descendants, which
    is what the recursive iterator guarantees.
  * SHA-256 is abstracted as a parameter `Hf : Bytes → String` (the hex
    digest); every theorem holds for an arbitrary digest function, hence
    in particular for SHA-256.
  * `std::ifstream` on a path that is not a readable regular file yields
    no bytes, so `computeFileHash` hashes the empty buffer; the embedding
    reads such paths as `[]`.
  * Filesystem calls that can throw (`fs::create_directory`,
    `fs::copy_file`) return `Option`; `none` is the thrown exception,
    which the reconcilers catch at the boundary of their whole loop,
    abandoning the remaining entries of that phase.  `fs::remove_all`
    does not throw on a missing path (it removes nothing), so it is total.
  * Log lines are modelled as abstract events carrying the absolute paths
    the program prints (`replica / relativePath` etc.).
-/

namespace SyncFolders

/-- A relative path: the list of path components below a tree root. -/
abbrev Path := List String

/-- File content as a list of bytes. -/
abbrev Bytes := List Nat

/-- Kind (and content) of a filesystem entry. -/
inductive Entry where
  | file (content : Bytes)
  | dir
  | other
  deriving DecidableEq, Repr

/-- A filesystem tree: entries keyed by relative path, listed in the
enumeration order of the recursive directory iterator. -/
abbrev Tree := List (Path × Entry)

/-- Look up the entry at a relative path (first match). -/
def lookupEntry : Tree → Path → Option Entry
  | [], _ => none
  | (q, e) :: rest, p => if q = p then some e else lookupEntry rest p

/-- `fs::exists(root / p)`. -/
def existsP (t : Tree) (p : Path) : Bool :=
  (lookupEntry t p).isSome

/-- `fs::is_regular_file(root / p)`. -/
def isRegularFile (t : Tree) (p : Path) : Bool :=
  match lookupEntry t p with
  | some (Entry.file _) => true
  | _ => false

/-- Status test on a lookup result: is it a directory entry? -/
def isDirO : Option Entry → Bool
  | some Entry.dir => true
  | _ => false

/-- `fs::is_directory(root / p)`. -/
def isDirectoryP (t : Tree) (p : Path) : Bool :=
  isDirO (lookupEntry t p)

/-- Bytes obtained by `std::ifstream` + `istreambuf_iterator` at a path:
the file's content for a regular file, and the empty buffer when the
stream cannot be read (missing path, directory, special file) — the
stream failure is not checked by `computeFileHash`. -/
def readFileBytes (t : Tree) (p : Path) : Bytes :=
  match lookupEntry t p with
  | some (Entry.file c) => c
  | _ => []

/-- `computeFileHash`: read the whole file into a buffer and digest it.
`Hf` abstracts the SHA-256 hex digest. -/
def computeFileHash (Hf : Bytes → String) (t : Tree) (p : Path) : String :=
  Hf (readFileBytes t p)

/-- Boolean test that `a` is a prefix of `b` (one path leads to the other). -/
def prefixOf : Path → Path → Bool
  | [], _ => true
  | _ :: _, [] => false
  | a :: as, b :: bs => a == b && prefixOf as bs

/-- One log line of the program, as an abstract event.  The paths stored
are the absolute paths the program prints (root ++ relative path). -/
inductive Event where
  | createdReplicaRoot (abs : Path)
  | createdDir (abs : Path)
  | copied (srcAbs : Path) (dstAbs : Path)
  | removed (abs : Path)
  | fsError
  | completion
  deriving DecidableEq, Repr

/-- State threaded through one synchronization cycle: the replica tree,
the `changesMade` flag and the log. -/
structure St where
  rep : Tree
  changes : Bool
  log : List Event
  deriving DecidableEq, Repr

/-- The parent of `p` exists (as a directory, or `p` is directly below the
root).  `fs::create_directory` and `fs::copy_file` throw when it does not. -/
def parentOk (t : Tree) (p : Path) : Bool :=
  decide (p.length ≤ 1) || isDirO (lookupEntry t p.dropLast)

/-- `fs::create_directory(root / p)`: creates only the immediate
directory; throws (`none`) when the parent is missing or `p` is occupied
by a non-directory; returns without error when `p` is already a directory. -/
def create_directory (t : Tree) (p : Path) : Option Tree :=
  match lookupEntry t p with
  | some Entry.dir => some t
  | some _ => none
  | none => if parentOk t p then some (t ++ [(p, Entry.dir)]) else none

/-- Replace the content of the regular file stored at `p`. -/
def overwriteContent (t : Tree) (p : Path) (c : Bytes) : Tree :=
  t.map (fun qe => if qe.1 = p then (qe.1, Entry.file c) else qe)

/-- `fs::copy_file(src, root / p, overwrite_existing)` with source
content `c`: throws (`none`) when the destination exists and is not a
regular file, or when the destination's parent directory is missing. -/
def copy_file (t : Tree) (p : Path) (c : Bytes) : Option Tree :=
  match lookupEntry t p with
  | some (Entry.file _) => some (overwriteContent t p c)
  | some _ => none
  | none => if parentOk t p then some (t ++ [(p, Entry.file c)]) else none

/-- `fs::remove_all(root / p)`: removes the entry at `p` and its whole
subtree; removing an absent path is a no-op and never an error. -/
def remove_all (t : Tree) (p : Path) : Tree :=
  t.filter (fun qe => !(prefixOf p qe.1))

/-- Loop body of `syncSubdirectories` over the source enumeration.  A
thrown exception (`none` from `create_directory`) is caught by the
`try`/`catch` wrapping the whole loop: it is logged and the remaining
entries are not processed. -/
def syncSubdirsGo (repRoot : Path) (src : Tree) (s : St) : List (Path × Entry) → St
  | [] => s
  | (p, _) :: rest =>
    if isDirectoryP src p then
      if existsP s.rep p then syncSubdirsGo repRoot src s rest
      else
        match create_directory s.rep p with
        | some t =>
            syncSubdirsGo repRoot src
              { rep := t, changes := true,
                log := s.log ++ [Event.createdDir (repRoot ++ p)] } rest
        | none => { s with log := s.log ++ [Event.fsError] }
    else syncSubdirsGo repRoot src s rest

/-- `syncSubdirectories`: create in the replica every directory of the
source enumeration that is missing there. -/
def syncSubdirectories (repRoot : Path) (src : Tree) (s : St) : St :=
  syncSubdirsGo repRoot src s src

/-- Loop body of `syncCopy` over the source enumeration.  For each
regular file: copy when the replica path is missing, or when the two
SHA-256 digests differ.  A thrown exception is caught outside the loop:
logged, remaining entries not processed. -/
def syncCopyGo (Hf : Bytes → String) (srcRoot repRoot : Path) (src : Tree) (s : St) :
    List (Path × Entry) → St
  | [] => s
  | (p, _) :: rest =>
    if isRegularFile src p then
      let shouldCopy : Bool :=
        if existsP s.rep p then
          decide (computeFileHash Hf src p ≠ computeFileHash Hf s.rep p)
        else true
      if shouldCopy then
        match copy_file s.rep p (readFileBytes src p) with
        | some t =>
            syncCopyGo Hf srcRoot repRoot src
              { rep := t, changes := true,
                log := s.log ++ [Event.copied (srcRoot ++ p) (repRoot ++ p)] } rest
        | none => { s with log := s.log ++ [Event.fsError] }
      else syncCopyGo Hf srcRoot repRoot src s rest
    else syncCopyGo Hf srcRoot repRoot src s rest

/-- `syncCopy`: reconcile every regular file of the source into the replica. -/
def syncCopy (Hf : Bytes → String) (srcRoot repRoot : Path) (src : Tree) (s : St) : St :=
  syncCopyGo Hf srcRoot repRoot src s src

/-- First loop of `syncDelete`: walk the replica enumeration and collect
into `filesToRemove` every path whose source counterpart does not exist.
No removal happens during this enumeration. -/
def collectRemovals (src : Tree) (rep : Tree) : List Path :=
  (rep.filter (fun qe => !(existsP src qe.1))).map Prod.fst

/-- Second loop of `syncDelete`: apply `fs::remove_all` to each collected
path, log it and set the change flag. -/
def applyRemovals (repRoot : Path) (s : St) : List Path → St
  | [] => s
  | p :: rest =>
      applyRemovals repRoot
        { rep := remove_all s.rep p, changes := true,
          log := s.log ++ [Event.removed (repRoot ++ p)] } rest

/-- `syncDelete`: remove from the replica everything without a source
counterpart — collected first, then applied. -/
def syncDelete (repRoot : Path) (src : Tree) (s : St) : St :=
  applyRemovals repRoot s (collectRemovals src s.rep)

/-- `syncFolders`: reset the change flag, create the replica root if it
is absent (`rep0 = none`), then run the three reconcilers in order. -/
def syncFolders (Hf : Bytes → String) (srcRoot repRoot : Path) (src : Tree)
    (rep0 : Option Tree) : St :=
  let s0 : St :=
    match rep0 with
    | none => { rep := [], changes := true, log := [Event.createdReplicaRoot repRoot] }
    | some t => { rep := t, changes := false, log := [] }
  syncDelete repRoot src (syncCopy Hf srcRoot repRoot src (syncSubdirectories repRoot src s0))

/-- `fs::is_regular_file(entry) || fs::is_directory(entry)` on the cached
entry status of the iterator. -/
def entryCounted : Entry → Bool
  | Entry.other => false
  | _ => true

/-- `countFilesAndDirectories`: count the entries under a root that are
regular files or directories. -/
def countFilesAndDirectories (t : Tree) : Nat :=
  (t.filter (fun qe => entryCounted qe.2)).length

/-- `checkSyncCompletion`: log the completion line and reset the change
flag exactly when the two counts match and the flag was set. -/
def checkSyncCompletion (src : Tree) (s : St) : St :=
  if countFilesAndDirectories src = countFilesAndDirectories s.rep ∧ s.changes = true then
    { s with changes := false, log := s.log ++ [Event.completion] }
  else s

/-- The duration passed to `sleep_for` by the run loop:
`seconds(interval) - elapsed_seconds`.  Durations are modelled as exact
rationals. -/
def remainingSleepRequest (interval elapsed : ℚ) : ℚ :=
  interval - elapsed

/-- Time actually blocked by `std::this_thread::sleep_for d`: a negative
or zero request returns immediately. -/
def sleepForDuration (d : ℚ) : ℚ :=
  max d 0

/-- Well-formedness of an enumeration, checked left to right: every key
is a nonempty path not listed before, and its parent directory either is
the tree root or has been listed earlier as a directory.  This is exactly
what a real directory tree enumerated by
`recursive_directory_iterator` satisfies. -/
def wfFrom : Tree → Tree → Bool
  | _, [] => true
  | seen, (p, e) :: rest =>
    (!p.isEmpty) &&
    (lookupEntry seen p).isNone &&
    (decide (p.length ≤ 1) || isDirO (lookupEntry seen p.dropLast)) &&
    wfFrom (seen ++ [(p, e)]) rest

/-- A well-formed tree. -/
def wellFormed (t : Tree) : Bool :=
  wfFrom [] t

/-- No entry of the tree is of an unsupported kind. -/
def noOther (t : Tree) : Bool :=
  t.all (fun qe => match qe.2 with
    | Entry.other => false
    | _ => true)

/-- Two entries have the same kind. -/
def kindMatch : Entry → Entry → Bool
  | Entry.file _, Entry.file _ => true
  | Entry.dir, Entry.dir => true
  | Entry.other, Entry.other => true
  | _, _ => false

/-- Every path present in both trees carries the same kind of entry. -/
def compatB (src rep : Tree) : Bool :=
  src.all (fun pe =>
    match lookupEntry rep pe.1 with
    | none => true
    | some er => kindMatch pe.2 er)

/-- Admissible initial replica state: absent, or a well-formed tree with
no kind conflict against the source. -/
def repOk (src : Tree) : Option Tree → Bool
  | none => true
  | some t => wellFormed t && compatB src t

/-- Propositional form of `compatB`. -/
def Compat (src rep : Tree) : Prop :=
  ∀ p es er, lookupEntry src p = some es → lookupEntry rep p = some er →
    kindMatch es er = true

/-- Every key of the tree is a nonempty path. -/
def KeysNE (t : Tree) : Prop :=
  ∀ p e, (p, e) ∈ t → p ≠ []

/-- Footprint of one logged event on the combined filesystem: the set of
absolute paths whose content or existence the corresponding mutation can
change.  `copied` and the two directory creations touch exactly their
destination path; `removed` touches the whole subtree below its path. -/
def touchesPath : Event → Path → Bool
  | Event.createdReplicaRoot a, q => a == q
  | Event.createdDir a, q => a == q
  | Event.copied _ d, q => d == q
  | Event.removed a, q => prefixOf a q
  | Event.fsError, _ => false
  | Event.completion, _ => false

/-- Events a synchronization cycle may append to the log: error lines,
and mutation lines whose target lies under the replica root.  The
completion line is never produced by the cycle itself. -/
def eventOkB (repRoot : Path) : Event → Bool
  | Event.createdReplicaRoot a => prefixOf repRoot a
  | Event.createdDir a => prefixOf repRoot a
  | Event.copied _ d => prefixOf repRoot d
  | Event.removed a => prefixOf repRoot a
  | Event.fsError => true
  | Event.completion => false

/-! ### Basic lemmas about lookups and tree operations -/

theorem lookupEntry_cons (q : Path) (e : Entry) (t : Tree) (p : Path) :
    lookupEntry ((q, e) :: t) p = if q = p then some e else lookupEntry t p := rfl

theorem lookup_mem {t : Tree} {p : Path} {e : Entry}
    (h : lookupEntry t p = some e) : (p, e) ∈ t := by
  induction t with
  | nil => simp [lookupEntry] at h
  | cons qe rest ih =>
    obtain ⟨q, e0⟩ := qe
    rw [lookupEntry_cons] at h
    by_cases hq : q = p
    · subst hq
      have h' : e0 = e := by simpa using h
      subst h'
      exact List.mem_cons_self _ _
    · rw [if_neg hq] at h
      exact List.mem_cons_of_mem _ (ih h)

theorem mem_existsP {t : Tree} {p : Path} {e : Entry}
    (h : (p, e) ∈ t) : existsP t p = true := by
  induction t with
  | nil => simp at h
  | cons qe rest ih =>
    obtain ⟨q, e0⟩ := qe
    rcases List.mem_cons.mp h with heq | hmem
    · obtain ⟨h1, _⟩ := Prod.mk.injEq .. ▸ congrArg id heq
      simp only [existsP, lookupEntry_cons]
      rw [Prod.mk.injEq] at heq
      rw [if_pos heq.1.symm]
      rfl
    · simp only [existsP, lookupEntry_cons]
      by_cases hq : q = p
      · rw [if_pos hq]; rfl
      · rw [if_neg hq]; exact ih hmem

theorem lookup_none_not_mem {t : Tree} {p : Path}
    (h : lookupEntry t p = none) : ∀ e, (p, e) ∉ t := by
  intro e hmem
  have := mem_existsP hmem
  rw [existsP, h] at this
  exact absurd this (by simp)

theorem lookup_append_some {t : Tree} {p : Path} {e : Entry} (l : Tree)
    (h : lookupEntry t p = some e) : lookupEntry (t ++ l) p = some e := by
  induction t with
  | nil => simp [lookupEntry] at h
  | cons qe rest ih =>
    obtain ⟨q, e0⟩ := qe
    rw [lookupEntry_cons] at h
    rw [List.cons_append, lookupEntry_cons]
    by_cases hq : q = p
    · rw [if_pos hq] at h ⊢; exact h
    · rw [if_neg hq] at h ⊢; exact ih h

theorem lookup_append_none {t : Tree} {p : Path} (l : Tree)
    (h : lookupEntry t p = none) : lookupEntry (t ++ l) p = lookupEntry l p := by
  induction t with
  | nil => simp
  | cons qe rest ih =>
    obtain ⟨q, e0⟩ := qe
    rw [lookupEntry_cons] at h
    rw [List.cons_append, lookupEntry_cons]
    by_cases hq : q = p
    · rw [if_pos hq] at h; exact absurd h (by simp)
    · rw [if_neg hq] at h ⊢; exact ih h

theorem lookup_append_both_none {t l : Tree} {p : Path}
    (h : lookupEntry (t ++ l) p = none) :
    lookupEntry t p = none ∧ lookupEntry l p = none := by
  cases ht : lookupEntry t p with
  | none => exact ⟨rfl, by rw [lookup_append_none l ht] at h; exact h⟩
  | some e => rw [lookup_append_some l ht] at h; exact absurd h (by simp)

theorem lookup_overwrite_self {t : Tree} {p : Path} {e : Entry} (c : Bytes)
    (h : lookupEntry t p = some e) :
    lookupEntry (overwriteContent t p c) p = some (Entry.file c) := by
  induction t with
  | nil => simp [lookupEntry] at h
  | cons qe rest ih =>
    obtain ⟨q, e0⟩ := qe
    rw [lookupEntry_cons] at h
    by_cases hq : q = p
    · simp only [overwriteContent, List.map_cons, if_pos hq]
      rw [lookupEntry_cons, if_pos hq]
    · rw [if_neg hq] at h
      simp only [overwriteContent, List.map_cons, if_neg hq]
      rw [lookupEntry_cons, if_neg hq]
      exact ih h

theorem lookup_overwrite_ne {t : Tree} {p q : Path} (c : Bytes) (hne : p ≠ q) :
    lookupEntry (overwriteContent t p c) q = lookupEntry t q := by
  induction t with
  | nil => rfl
  | cons qe rest ih =>
    obtain ⟨q0, e0⟩ := qe
    by_cases hq : q0 = p
    · simp only [overwriteContent, List.map_cons, if_pos hq]
      rw [lookupEntry_cons, lookupEntry_cons]
      have : q0 ≠ q := by rw [hq]; exact hne
      rw [if_neg this, if_neg this]
      exact ih
    · simp only [overwriteContent, List.map_cons, if_neg hq]
      rw [lookupEntry_cons, lookupEntry_cons]
      by_cases h2 : q0 = q
      · rw [if_pos h2, if_pos h2]
      · rw [if_neg h2, if_neg h2]; exact ih

theorem lookup_overwrite_none {t : Tree} {p q : Path} (c : Bytes)
    (h : lookupEntry t q = none) :
    lookupEntry (overwriteContent t p c) q = none := by
  by_cases hq : p = q
  · subst hq
    induction t with
    | nil => rfl
    | cons qe rest ih =>
      obtain ⟨q0, e0⟩ := qe
      rw [lookupEntry_cons] at h
      by_cases h0 : q0 = p
      · rw [if_pos h0] at h; exact absurd h (by simp)
      · rw [if_neg h0] at h
        simp only [overwriteContent, List.map_cons]
        by_cases h1 : q0 = p
        · exact absurd h1 h0
        · rw [if_neg h1, lookupEntry_cons, if_neg h0]
          exact ih h
  · rw [lookup_overwrite_ne c hq]; exact h

theorem lookup_filter_some {t : Tree} {p : Path} {e : Entry} {f : Path × Entry → Bool}
    (h : lookupEntry t p = some e) (hf : f (p, e) = true) :
    lookupEntry (t.filter f) p = some e := by
  induction t with
  | nil => simp [lookupEntry] at h
  | cons qe rest ih =>
    obtain ⟨q, e0⟩ := qe
    rw [lookupEntry_cons] at h
    by_cases hq : q = p
    · subst hq
      have h' : e0 = e := by simpa using h
      subst h'
      rw [List.filter_cons, if_pos hf, lookupEntry_cons, if_pos rfl]
    · rw [if_neg hq] at h
      rw [List.filter_cons]
      by_cases hk : f (q, e0) = true
      · rw [if_pos hk, lookupEntry_cons, if_neg hq]; exact ih h
      · rw [if_neg hk]; exact ih h

theorem lookup_filter_none_key {t : Tree} {p : Path} {f : Path × Entry → Bool}
    (h : ∀ e, f (p, e) = false) :
    lookupEntry (t.filter f) p = none := by
  induction t with
  | nil => rfl
  | cons qe rest ih =>
    obtain ⟨q, e0⟩ := qe
    rw [List.filter_cons]
    by_cases hq : q = p
    · subst hq
      rw [if_neg (by rw [h e0]; simp)]
      exact ih
    · by_cases hk : f (q, e0) = true
      · rw [if_pos hk, lookupEntry_cons, if_neg hq]; exact ih
      · rw [if_neg hk]; exact ih

theorem lookup_filter_none {t : Tree} {p : Path} {f : Path × Entry → Bool}
    (h : lookupEntry t p = none) :
    lookupEntry (t.filter f) p = none := by
  cases hf : lookupEntry (t.filter f) p with
  | none => rfl
  | some e =>
    have hmem := lookup_mem hf
    have hmem' := (List.mem_filter.mp hmem).1
    exact absurd (mem_existsP hmem') (by rw [existsP, h]; simp)

/-! ### prefixOf lemmas -/

theorem prefixOf_iff (a b : Path) : prefixOf a b = true ↔ a <+: b := by
  induction a generalizing b with
  | nil => simp [prefixOf]
  | cons x as ih =>
    cases b with
    | nil =>
      simp only [prefixOf]
      constructor
      · intro h; exact absurd h (by simp)
      · intro h
        have := h.length_le
        simp at this
    | cons y bs =>
      simp only [prefixOf, Bool.and_eq_true, beq_iff_eq]
      rw [ih]
      constructor
      · rintro ⟨rfl, h⟩
        rcases h with ⟨tl, htl⟩
        exact ⟨tl, by rw [List.cons_append, htl]⟩
      · intro h
        rcases h with ⟨tl, htl⟩
        rw [List.cons_append] at htl
        injection htl with h1 h2
        exact ⟨h1, ⟨tl, h2⟩⟩

theorem prefixOf_append (a b : Path) : prefixOf a (a ++ b) = true :=
  (prefixOf_iff a (a ++ b)).mpr ⟨b, rfl⟩

theorem prefixOf_refl (a : Path) : prefixOf a a = true := by
  have := prefixOf_append a []
  rwa [List.append_nil] at this

/-! ### Kind and status helper lemmas -/

theorem isDirO_iff {o : Option Entry} : isDirO o = true ↔ o = some Entry.dir := by
  cases o with
  | none => simp [isDirO]
  | some e => cases e <;> simp [isDirO]

theorem isDirectoryP_iff {t : Tree} {p : Path} :
    isDirectoryP t p = true ↔ lookupEntry t p = some Entry.dir := by
  rw [isDirectoryP, isDirO_iff]

theorem isRegularFile_iff {t : Tree} {p : Path} :
    isRegularFile t p = true ↔ ∃ c, lookupEntry t p = some (Entry.file c) := by
  rw [isRegularFile]
  cases h : lookupEntry t p with
  | none => simp
  | some e => cases e <;> simp

theorem existsP_iff {t : Tree} {p : Path} :
    existsP t p = true ↔ ∃ e, lookupEntry t p = some e := by
  rw [existsP]
  cases lookupEntry t p <;> simp

theorem existsP_false_iff {t : Tree} {p : Path} :
    existsP t p = false ↔ lookupEntry t p = none := by
  rw [existsP]
  cases lookupEntry t p <;> simp

theorem readFileBytes_of_file {t : Tree} {p : Path} {c : Bytes}
    (h : lookupEntry t p = some (Entry.file c)) : readFileBytes t p = c := by
  rw [readFileBytes, h]

theorem compatB_compat {src rep : Tree} (h : compatB src rep = true) :
    Compat src rep := by
  intro p es er hs hr
  have hmem := lookup_mem hs
  have := (List.all_eq_true.mp h) _ hmem
  simp only at this
  rw [hr] at this
  exact this

theorem kindMatch_dir {er : Entry} (h : kindMatch Entry.dir er = true) :
    er = Entry.dir := by
  cases er <;> simp [kindMatch] at h ⊢

theorem kindMatch_file {c : Bytes} {er : Entry}
    (h : kindMatch (Entry.file c) er = true) : ∃ c', er = Entry.file c' := by
  cases er with
  | file c' => exact ⟨c', rfl⟩
  | dir => simp [kindMatch] at h
  | other => simp [kindMatch] at h

/-! ### Well-formedness lemmas -/

theorem wfFrom_cons {seen : Tree} {p : Path} {e : Entry} {rest : Tree}
    (h : wfFrom seen ((p, e) :: rest) = true) :
    p ≠ [] ∧ lookupEntry seen p = none ∧
    (p.length ≤ 1 ∨ lookupEntry seen p.dropLast = some Entry.dir) ∧
    wfFrom (seen ++ [(p, e)]) rest = true := by
  rw [wfFrom] at h
  simp only [Bool.and_eq_true, Bool.or_eq_true, decide_eq_true_eq] at h
  obtain ⟨⟨⟨h1, h2⟩, h3⟩, h4⟩ := h
  refine ⟨?_, ?_, ?_, h4⟩
  · intro hne; subst hne; simp at h1
  · cases hl : lookupEntry seen p with
    | none => rfl
    | some e0 => rw [hl] at h2; exact absurd h2 (by simp)
  · rcases h3 with h3 | h3
    · exact Or.inl h3
    · exact Or.inr (isDirO_iff.mp h3)

theorem wfFrom_mem_notin_seen :
    ∀ (rest seen : Tree), wfFrom seen rest = true →
      ∀ p e, (p, e) ∈ rest → lookupEntry seen p = none := by
  intro rest
  induction rest with
  | nil => intro seen _ p e hmem; simp at hmem
  | cons qe rest ih =>
    obtain ⟨q, e0⟩ := qe
    intro seen hwf p e hmem
    obtain ⟨_, hnotseen, _, hrest⟩ := wfFrom_cons hwf
    rcases List.mem_cons.mp hmem with heq | hmem'
    · rw [Prod.mk.injEq] at heq
      rw [heq.1]; exact hnotseen
    · exact (lookup_append_both_none (ih _ hrest p e hmem')).1

theorem wfFrom_mem_lookup :
    ∀ (rest seen : Tree), wfFrom seen rest = true →
      ∀ p e, (p, e) ∈ rest → lookupEntry seen p = none →
        lookupEntry rest p = some e := by
  intro rest
  induction rest with
  | nil => intro seen _ p e hmem; simp at hmem
  | cons qe rest ih =>
    obtain ⟨q, e0⟩ := qe
    intro seen hwf p e hmem hnone
    obtain ⟨_, _, _, hrest⟩ := wfFrom_cons hwf
    rcases List.mem_cons.mp hmem with heq | hmem'
    · rw [Prod.mk.injEq] at heq
      rw [lookupEntry_cons, if_pos heq.1.symm, heq.2]
    · have hseen' := wfFrom_mem_notin_seen _ _ hrest p e hmem'
      by_cases hq : q = p
      · subst hq
        rw [lookup_append_none _ hnone, lookupEntry_cons, if_pos rfl] at hseen'
        exact absurd hseen' (by simp)
      · rw [lookupEntry_cons, if_neg hq]
        refine ih _ hrest p e hmem' ?_
        rw [lookup_append_none _ hnone, lookupEntry_cons, if_neg hq]
        rfl

theorem wf_mem_lookup {t : Tree} (hwf : wellFormed t = true)
    {p : Path} {e : Entry} (hmem : (p, e) ∈ t) : lookupEntry t p = some e :=
  wfFrom_mem_lookup t [] hwf p e hmem rfl

theorem wf_key_nonempty :
    ∀ (rest seen : Tree), wfFrom seen rest = true →
      ∀ p e, (p, e) ∈ rest → p ≠ [] := by
  intro rest
  induction rest with
  | nil => intro seen _ p e hmem; simp at hmem
  | cons qe rest ih =>
    obtain ⟨q, e0⟩ := qe
    intro seen hwf p e hmem
    obtain ⟨hne, _, _, hrest⟩ := wfFrom_cons hwf
    rcases List.mem_cons.mp hmem with heq | hmem'
    · rw [Prod.mk.injEq] at heq
      rw [heq.1]; exact hne
    · exact ih _ hrest p e hmem'

theorem wf_KeysNE {t : Tree} (hwf : wellFormed t = true) : KeysNE t :=
  fun p e hmem => wf_key_nonempty t [] hwf p e hmem

theorem wfFrom_parent :
    ∀ (rest seen : Tree), wfFrom seen rest = true →
      ∀ p e, (p, e) ∈ rest → 2 ≤ p.length →
        (p.dropLast, Entry.dir) ∈ seen ∨ (p.dropLast, Entry.dir) ∈ rest := by
  intro rest
  induction rest with
  | nil => intro seen _ p e hmem; simp at hmem
  | cons qe rest ih =>
    obtain ⟨q, e0⟩ := qe
    intro seen hwf p e hmem hlen
    obtain ⟨_, _, hpar, hrest⟩ := wfFrom_cons hwf
    rcases List.mem_cons.mp hmem with heq | hmem'
    · rw [Prod.mk.injEq] at heq
      obtain ⟨hp, _⟩ := heq
      subst hp
      rcases hpar with hpar | hpar
      · omega
      · exact Or.inl (lookup_mem hpar)
    · rcases ih _ hrest p e hmem' hlen with hseen | hr
      · rcases List.mem_append.mp hseen with h | h
        · exact Or.inl h
        · simp only [List.mem_singleton, Prod.mk.injEq] at h
          exact Or.inr (List.mem_cons.mpr (Or.inl (by rw [Prod.mk.injEq]; exact ⟨h.1.symm ▸ rfl, h.2.symm ▸ rfl⟩)))
      · exact Or.inr (List.mem_cons_of_mem _ hr)

theorem wf_parent_lookup {t : Tree} (hwf : wellFormed t = true)
    {p : Path} {e : Entry} (hmem : (p, e) ∈ t) (hlen : 2 ≤ p.length) :
    lookupEntry t p.dropLast = some Entry.dir := by
  rcases wfFrom_parent t [] hwf p e hmem hlen with h | h
  · simp at h
  · exact wf_mem_lookup hwf h

theorem wf_lookup_facts {t : Tree} (hwf : wellFormed t = true)
    {p : Path} {e : Entry} (h : lookupEntry t p = some e) :
    p ≠ [] ∧ (p.length ≤ 1 ∨ lookupEntry t p.dropLast = some Entry.dir) := by
  have hmem := lookup_mem h
  refine ⟨wf_KeysNE hwf p e hmem, ?_⟩
  by_cases hlen : p.length ≤ 1
  · exact Or.inl hlen
  · exact Or.inr (wf_parent_lookup hwf hmem (by omega))

theorem wf_ancestor_aux {t : Tree} (hwf : wellFormed t = true) :
    ∀ (n : Nat) (p : Path) (e : Entry), p.length ≤ n → lookupEntry t p = some e →
      ∀ a, a ≠ [] → a <+: p → existsP t a = true := by
  intro n
  induction n with
  | zero =>
    intro p e hlen h a ha hpre
    have hp : p = [] := List.length_eq_zero.mp (Nat.le_zero.mp hlen)
    subst hp
    exact absurd (List.prefix_nil.mp hpre) ha
  | succ n ih =>
    intro p e hlen h a ha hpre
    by_cases hap : a = p
    · subst hap
      exact mem_existsP (lookup_mem h)
    · have hle : a.length ≤ p.length := hpre.length_le
      have hlt : a.length < p.length := by
        rcases Nat.lt_or_ge a.length p.length with h' | h'
        · exact h'
        · exact absurd (hpre.eq_of_length (Nat.le_antisymm hle h')) hap
      have hna : 1 ≤ a.length := by
        have := List.length_pos.mpr ha
        omega
      have h2 : 2 ≤ p.length := by omega
      have hq : lookupEntry t p.dropLast = some Entry.dir :=
        wf_parent_lookup hwf (lookup_mem h) h2
      have hpre' : a <+: p.dropLast :=
        List.prefix_of_prefix_length_le hpre (List.dropLast_prefix p)
          (by rw [List.length_dropLast]; omega)
      exact ih p.dropLast Entry.dir (by rw [List.length_dropLast]; omega) hq a ha hpre'

theorem wf_ancestor {t : Tree} (hwf : wellFormed t = true)
    {p : Path} {e : Entry} (h : lookupEntry t p = some e)
    {a : Path} (ha : a ≠ []) (hpre : a <+: p) : existsP t a = true :=
  wf_ancestor_aux hwf p.length p e le_rfl h a ha hpre

/-! ### Structure Mirror: specification of syncSubdirectories -/

theorem subdirsGo_spec (rr : Path) (src : Tree) :
    ∀ (rest : List (Path × Entry)) (seen : Tree) (s : St),
      wfFrom seen rest = true →
      (∀ p e, (p, e) ∈ rest → lookupEntry src p = some e) →
      Compat src s.rep →
      KeysNE s.rep →
      (∀ q, lookupEntry seen q = some Entry.dir → lookupEntry s.rep q = some Entry.dir) →
      Compat src (syncSubdirsGo rr src s rest).rep ∧
      KeysNE (syncSubdirsGo rr src s rest).rep ∧
      (∀ q v, lookupEntry s.rep q = some v →
        lookupEntry (syncSubdirsGo rr src s rest).rep q = some v) ∧
      (∀ q e, (q, e) ∈ rest → e = Entry.dir →
        lookupEntry (syncSubdirsGo rr src s rest).rep q = some Entry.dir) ∧
      (∀ q v, lookupEntry (syncSubdirsGo rr src s rest).rep q = some v →
        lookupEntry s.rep q = some v ∨
          (v = Entry.dir ∧ lookupEntry s.rep q = none ∧ isDirectoryP src q = true)) := by
  intro rest
  induction rest with
  | nil =>
    intro seen s _ _ hcompat hkeys _
    refine ⟨hcompat, hkeys, ?_, ?_, ?_⟩
    · intro q v h; exact h
    · intro q e hmem; simp at hmem
    · intro q v h; exact Or.inl h
  | cons qe rest ih =>
    obtain ⟨q, e0⟩ := qe
    intro seen s hwf hmem hcompat hkeys hdirs
    obtain ⟨hqne, _, hpar, hrest⟩ := wfFrom_cons hwf
    have hsrcq : lookupEntry src q = some e0 := hmem q e0 (List.mem_cons_self _ _)
    have hmem' : ∀ p e, (p, e) ∈ rest → lookupEntry src p = some e :=
      fun p e h => hmem p e (List.mem_cons_of_mem _ h)
    by_cases hdir : isDirectoryP src q = true
    · have hsd : lookupEntry src q = some Entry.dir := isDirectoryP_iff.mp hdir
      by_cases hex : existsP s.rep q = true
      · -- replica path already exists: by compatibility it is a directory
        obtain ⟨er, her⟩ := existsP_iff.mp hex
        have herd : er = Entry.dir := kindMatch_dir (hcompat q Entry.dir er hsd her)
        subst herd
        have hgo : syncSubdirsGo rr src s ((q, e0) :: rest) = syncSubdirsGo rr src s rest := by
          simp [syncSubdirsGo, hdir, hex]
        rw [hgo]
        have hdirs' : ∀ q', lookupEntry (seen ++ [(q, e0)]) q' = some Entry.dir →
            lookupEntry s.rep q' = some Entry.dir := by
          intro q' hl
          cases hsq : lookupEntry seen q' with
          | some v =>
            rw [lookup_append_some _ hsq] at hl
            injection hl with hv
            rw [hv] at hsq
            exact hdirs q' hsq
          | none =>
            rw [lookup_append_none _ hsq, lookupEntry_cons] at hl
            by_cases hqq : q = q'
            · rw [if_pos hqq] at hl
              injection hl with hv
              rw [← hqq]
              exact her
            · rw [if_neg hqq] at hl
              exact absurd hl (by simp [lookupEntry])
        obtain ⟨c1, c2, c3, c4, c5⟩ := ih (seen ++ [(q, e0)]) s hrest hmem' hcompat hkeys hdirs'
        refine ⟨c1, c2, c3, ?_, c5⟩
        intro q' e hm he
        rcases List.mem_cons.mp hm with heq | hm'
        · rw [Prod.mk.injEq] at heq
          rw [heq.1]
          exact c3 q Entry.dir her
        · exact c4 q' e hm' he
      · -- replica path missing: create the directory
        have hnone : lookupEntry s.rep q = none :=
          existsP_false_iff.mp (by revert hex; cases existsP s.rep q <;> simp)
        have hpok : parentOk s.rep q = true := by
          rw [parentOk]
          rcases hpar with hlen | hp
          · rw [decide_eq_true hlen]; rfl
          · have := hdirs _ hp
            rw [this]
            simp [isDirO]
        have hcreate : create_directory s.rep q = some (s.rep ++ [(q, Entry.dir)]) := by
          rw [create_directory, hnone, if_pos hpok]
        have hgo : syncSubdirsGo rr src s ((q, e0) :: rest) =
            syncSubdirsGo rr src
              { rep := s.rep ++ [(q, Entry.dir)], changes := true,
                log := s.log ++ [Event.createdDir (rr ++ q)] } rest := by
          simp [syncSubdirsGo, hdir, hex, hcreate]
        rw [hgo]
        have hlook1 : ∀ q' (v : Entry), lookupEntry s.rep q' = some v →
            lookupEntry (s.rep ++ [(q, Entry.dir)]) q' = some v :=
          fun q' v h => lookup_append_some _ h
        have hlookq : lookupEntry (s.rep ++ [(q, Entry.dir)]) q = some Entry.dir := by
          rw [lookup_append_none _ hnone, lookupEntry_cons, if_pos rfl]
        have hlook_inv : ∀ q' (v : Entry), lookupEntry (s.rep ++ [(q, Entry.dir)]) q' = some v →
            lookupEntry s.rep q' = some v ∨ (q' = q ∧ v = Entry.dir) := by
          intro q' v h
          cases hsq : lookupEntry s.rep q' with
          | some w =>
            rw [lookup_append_some _ hsq] at h
            injection h with hv
            exact Or.inl (congrArg some hv)
          | none =>
            rw [lookup_append_none _ hsq, lookupEntry_cons] at h
            by_cases hqq : q = q'
            · rw [if_pos hqq] at h
              injection h with hv
              exact Or.inr ⟨hqq.symm, hv.symm⟩
            · rw [if_neg hqq] at h
              exact absurd h (by simp [lookupEntry])
        have hcompat1 : Compat src (s.rep ++ [(q, Entry.dir)]) := by
          intro p es er hs hr
          rcases hlook_inv p er hr with h | ⟨hpq, hv⟩
          · exact hcompat p es er hs h
          · subst hpq
            rw [hsd] at hs
            injection hs with hes
            rw [← hes, hv]
            rfl
        have hkeys1 : KeysNE (s.rep ++ [(q, Entry.dir)]) := by
          intro p e hm
          rcases List.mem_append.mp hm with h | h
          · exact hkeys p e h
          · simp only [List.mem_singleton, Prod.mk.injEq] at h
            rw [h.1]; exact hqne
        have hdirs1 : ∀ q', lookupEntry (seen ++ [(q, e0)]) q' = some Entry.dir →
            lookupEntry (s.rep ++ [(q, Entry.dir)]) q' = some Entry.dir := by
          intro q' hl
          cases hsq : lookupEntry seen q' with
          | some v =>
            rw [lookup_append_some _ hsq] at hl
            injection hl with hv
            rw [hv] at hsq
            exact hlook1 q' Entry.dir (hdirs q' hsq)
          | none =>
            rw [lookup_append_none _ hsq, lookupEntry_cons] at hl
            by_cases hqq : q = q'
            · rw [← hqq]; exact hlookq
            · rw [if_neg hqq] at hl
              exact absurd hl (by simp [lookupEntry])
        obtain ⟨c1, c2, c3, c4, c5⟩ := ih (seen ++ [(q, e0)])
          { rep := s.rep ++ [(q, Entry.dir)], changes := true,
            log := s.log ++ [Event.createdDir (rr ++ q)] }
          hrest hmem' hcompat1 hkeys1 hdirs1
        refine ⟨c1, c2, ?_, ?_, ?_⟩
        · intro q' v h
          exact c3 q' v (hlook1 q' v h)
        · intro q' e hm he
          rcases List.mem_cons.mp hm with heq | hm'
          · rw [Prod.mk.injEq] at heq
            rw [heq.1]
            exact c3 q Entry.dir hlookq
          · exact c4 q' e hm' he
        · intro q' v h
          rcases c5 q' v h with h1 | ⟨hv, h1, h2⟩
          · rcases hlook_inv q' v h1 with h2 | ⟨hpq, hv⟩
            · exact Or.inl h2
            · subst hpq
              exact Or.inr ⟨hv, hnone, hdir⟩
          · have := lookup_append_both_none (t := s.rep) (l := [(q, Entry.dir)]) h1
            exact Or.inr ⟨hv, this.1, h2⟩
    · -- not a directory in the source: skip
      have hgo : syncSubdirsGo rr src s ((q, e0) :: rest) = syncSubdirsGo rr src s rest := by
        simp [syncSubdirsGo, hdir]
      rw [hgo]
      have hdirs' : ∀ q', lookupEntry (seen ++ [(q, e0)]) q' = some Entry.dir →
          lookupEntry s.rep q' = some Entry.dir := by
        intro q' hl
        cases hsq : lookupEntry seen q' with
        | some v =>
          rw [lookup_append_some _ hsq] at hl
          injection hl with hv
          rw [hv] at hsq
          exact hdirs q' hsq
        | none =>
          rw [lookup_append_none _ hsq, lookupEntry_cons] at hl
          by_cases hqq : q = q'
          · rw [if_pos hqq] at hl
            injection hl with hv
            exfalso
            apply hdir
            rw [isDirectoryP_iff, hsrcq, hv]
          · rw [if_neg hqq] at hl
            exact absurd hl (by simp [lookupEntry])
      obtain ⟨c1, c2, c3, c4, c5⟩ := ih (seen ++ [(q, e0)]) s hrest hmem' hcompat hkeys hdirs'
      refine ⟨c1, c2, c3, ?_, c5⟩
      intro q' e hm he
      rcases List.mem_cons.mp hm with heq | hm'
      · exfalso
        rw [Prod.mk.injEq] at heq
        apply hdir
        rw [isDirectoryP_iff, hsrcq, ← heq.2, he]
      · exact c4 q' e hm' he

theorem subdirsGo_noop (rr : Path) (src : Tree) :
    ∀ (rest : List (Path × Entry)) (s : St),
      (∀ p e, (p, e) ∈ rest → lookupEntry src p = some e) →
      (∀ q, lookupEntry src q = some Entry.dir → existsP s.rep q = true) →
      syncSubdirsGo rr src s rest = s := by
  intro rest
  induction rest with
  | nil => intro s _ _; rfl
  | cons qe rest ih =>
    obtain ⟨q, e0⟩ := qe
    intro s hmem hdirs
    have hmem' : ∀ p e, (p, e) ∈ rest → lookupEntry src p = some e :=
      fun p e h => hmem p e (List.mem_cons_of_mem _ h)
    by_cases hdir : isDirectoryP src q = true
    · have hex : existsP s.rep q = true := hdirs q (isDirectoryP_iff.mp hdir)
      calc syncSubdirsGo rr src s ((q, e0) :: rest)
          = syncSubdirsGo rr src s rest := by simp [syncSubdirsGo, hdir, hex]
        _ = s := ih s hmem' hdirs
    · calc syncSubdirsGo rr src s ((q, e0) :: rest)
          = syncSubdirsGo rr src s rest := by simp [syncSubdirsGo, hdir]
        _ = s := ih s hmem' hdirs

/-! ### More lookup helpers -/

theorem lookup_append_single_ne {t : Tree} {q q' : Path} {x : Entry} (h : q ≠ q') :
    lookupEntry (t ++ [(q, x)]) q' = lookupEntry t q' := by
  cases hsq : lookupEntry t q' with
  | some v => exact lookup_append_some _ hsq
  | none =>
    rw [lookup_append_none _ hsq, lookupEntry_cons, if_neg h]
    rfl

theorem KeysNE_overwrite {t : Tree} {p : Path} {c : Bytes} (h : KeysNE t) :
    KeysNE (overwriteContent t p c) := by
  intro q e hm
  rw [overwriteContent, List.mem_map] at hm
  obtain ⟨⟨q0, e0⟩, hm0, heq⟩ := hm
  by_cases hq : q0 = p
  · rw [if_pos hq] at heq
    rw [Prod.mk.injEq] at heq
    rw [← heq.1]
    exact h q0 e0 hm0
  · rw [if_neg hq] at heq
    rw [Prod.mk.injEq] at heq
    rw [← heq.1]
    exact h q0 e0 hm0

/-! ### Copy Reconciler: specification of syncCopy -/

theorem copyGo_spec (Hf : Bytes → String) (sr rr : Path) (src : Tree) :
    ∀ (rest : List (Path × Entry)) (s : St),
      (∀ p e, (p, e) ∈ rest → lookupEntry src p = some e) →
      (∀ p e, lookupEntry src p = some e →
        p ≠ [] ∧ (p.length ≤ 1 ∨ lookupEntry src p.dropLast = some Entry.dir)) →
      Compat src s.rep →
      KeysNE s.rep →
      (∀ q, lookupEntry src q = some Entry.dir → lookupEntry s.rep q = some Entry.dir) →
      Compat src (syncCopyGo Hf sr rr src s rest).rep ∧
      KeysNE (syncCopyGo Hf sr rr src s rest).rep ∧
      (∀ q, lookupEntry src q = some Entry.dir →
        lookupEntry (syncCopyGo Hf sr rr src s rest).rep q = some Entry.dir) ∧
      (∀ q, lookupEntry (syncCopyGo Hf sr rr src s rest).rep q = lookupEntry s.rep q ∨
        ∃ c, lookupEntry src q = some (Entry.file c) ∧
          lookupEntry (syncCopyGo Hf sr rr src s rest).rep q = some (Entry.file c)) ∧
      (∀ q c, (q, Entry.file c) ∈ rest →
        ∃ c', lookupEntry (syncCopyGo Hf sr rr src s rest).rep q = some (Entry.file c') ∧
          Hf c' = Hf c) := by
  intro rest
  induction rest with
  | nil =>
    intro s _ _ hcompat hkeys hdirs
    refine ⟨hcompat, hkeys, hdirs, ?_, ?_⟩
    · intro q; exact Or.inl rfl
    · intro q c hm; simp at hm
  | cons qe rest ih =>
    obtain ⟨q, e0⟩ := qe
    intro s hmem hparents hcompat hkeys hdirs
    have hsrcq : lookupEntry src q = some e0 := hmem q e0 (List.mem_cons_self _ _)
    have hmem' : ∀ p e, (p, e) ∈ rest → lookupEntry src p = some e :=
      fun p e h => hmem p e (List.mem_cons_of_mem _ h)
    by_cases hreg : isRegularFile src q = true
    · obtain ⟨c, hc⟩ := isRegularFile_iff.mp hreg
      have he0 : e0 = Entry.file c := by
        rw [hsrcq] at hc; injection hc
      have hread : readFileBytes src q = c := readFileBytes_of_file hc
      have hqne : q ≠ [] := (hparents q e0 hsrcq).1
      by_cases hex : existsP s.rep q = true
      · -- replica file exists: compare digests
        obtain ⟨er, her⟩ := existsP_iff.mp hex
        obtain ⟨c2, hc2⟩ := kindMatch_file (hcompat q (Entry.file c) er hc her)
        subst hc2
        have hhs : computeFileHash Hf src q = Hf c := by
          rw [computeFileHash, hread]
        have hhr : computeFileHash Hf s.rep q = Hf c2 := by
          rw [computeFileHash, readFileBytes_of_file her]
        by_cases hhash : computeFileHash Hf src q = computeFileHash Hf s.rep q
        · -- digests equal: no copy
          have hgo : syncCopyGo Hf sr rr src s ((q, e0) :: rest) =
              syncCopyGo Hf sr rr src s rest := by
            simp [syncCopyGo, hreg, hex, hhash]
          rw [hgo]
          obtain ⟨c1', c2', c3', c4', c5'⟩ := ih s hmem' hparents hcompat hkeys hdirs
          refine ⟨c1', c2', c3', c4', ?_⟩
          intro q' cf hm
          rcases List.mem_cons.mp hm with heq | hm'
          · rw [Prod.mk.injEq] at heq
            obtain ⟨hq2, hcf⟩ := heq
            have hcf2 : cf = c := by
              rw [he0] at hcf; injection hcf
            rw [hq2, hcf2]
            have hH : Hf c2 = Hf c := by rw [← hhs, ← hhr, hhash]
            rcases c4' q with h4 | ⟨c3, hsrc3, hrep3⟩
            · exact ⟨c2, by rw [h4]; exact her, hH⟩
            · have hc3 : c3 = c := by
                rw [hc] at hsrc3
                injection hsrc3 with h'
                injection h' with h''
                exact h''.symm
              rw [hc3] at hrep3
              exact ⟨c, hrep3, rfl⟩
          · exact c5' q' cf hm'
        · -- digests differ: overwrite
          have hcopy : copy_file s.rep q (readFileBytes src q) =
              some (overwriteContent s.rep q c) := by
            rw [copy_file, her, hread]
          have hgo : syncCopyGo Hf sr rr src s ((q, e0) :: rest) =
              syncCopyGo Hf sr rr src
                { rep := overwriteContent s.rep q c, changes := true,
                  log := s.log ++ [Event.copied (sr ++ q) (rr ++ q)] } rest := by
            simp [syncCopyGo, hreg, hex, hhash, hcopy]
          rw [hgo]
          have hlookq : lookupEntry (overwriteContent s.rep q c) q = some (Entry.file c) :=
            lookup_overwrite_self c her
          have hlook_ne : ∀ q', q ≠ q' →
              lookupEntry (overwriteContent s.rep q c) q' = lookupEntry s.rep q' :=
            fun q' h => lookup_overwrite_ne c h
          have hcompat1 : Compat src (overwriteContent s.rep q c) := by
            intro p es er' hs hr
            by_cases hpq : q = p
            · subst hpq
              rw [hlookq] at hr
              injection hr with hr'
              rw [hc] at hs
              injection hs with hs'
              rw [← hs', ← hr']
              rfl
            · rw [hlook_ne p hpq] at hr
              exact hcompat p es er' hs hr
          have hkeys1 : KeysNE (overwriteContent s.rep q c) := KeysNE_overwrite hkeys
          have hdirs1 : ∀ q', lookupEntry src q' = some Entry.dir →
              lookupEntry (overwriteContent s.rep q c) q' = some Entry.dir := by
            intro q' hq'
            by_cases hpq : q = q'
            · subst hpq
              rw [hc] at hq'
              exact absurd hq' (by simp)
            · rw [hlook_ne q' hpq]
              exact hdirs q' hq'
          obtain ⟨c1', c2', c3', c4', c5'⟩ := ih
            { rep := overwriteContent s.rep q c, changes := true,
              log := s.log ++ [Event.copied (sr ++ q) (rr ++ q)] }
            hmem' hparents hcompat1 hkeys1 hdirs1
          refine ⟨c1', c2', c3', ?_, ?_⟩
          · intro q'
            rcases c4' q' with h4 | ⟨c3, hsrc3, hrep3⟩
            · by_cases hpq : q = q'
              · subst hpq
                rw [h4, hlookq]
                exact Or.inr ⟨c, hc, rfl⟩
              · rw [h4, hlook_ne q' hpq]
                exact Or.inl rfl
            · exact Or.inr ⟨c3, hsrc3, hrep3⟩
          · intro q' cf hm
            rcases List.mem_cons.mp hm with heq | hm'
            · rw [Prod.mk.injEq] at heq
              obtain ⟨hq2, hcf⟩ := heq
              have hcf2 : cf = c := by
                rw [he0] at hcf; injection hcf
              rw [hq2, hcf2]
              rcases c4' q with h4 | ⟨c3, hsrc3, hrep3⟩
              · exact ⟨c, by rw [h4, hlookq], rfl⟩
              · have hc3 : c3 = c := by
                  rw [hc] at hsrc3
                  injection hsrc3 with h'
                  injection h' with h''
                  exact h''.symm
                rw [hc3] at hrep3
                exact ⟨c, hrep3, rfl⟩
            · exact c5' q' cf hm'
      · -- replica path missing: create the file by copy
        have hnone : lookupEntry s.rep q = none :=
          existsP_false_iff.mp (by revert hex; cases existsP s.rep q <;> simp)
        have hpok : parentOk s.rep q = true := by
          rw [parentOk]
          rcases (hparents q e0 hsrcq).2 with hlen | hp
          · rw [decide_eq_true hlen]; rfl
          · have := hdirs _ hp
            rw [this]
            simp [isDirO]
        have hcopy : copy_file s.rep q (readFileBytes src q) =
            some (s.rep ++ [(q, Entry.file c)]) := by
          rw [copy_file, hnone, if_pos hpok, hread]
        have hgo : syncCopyGo Hf sr rr src s ((q, e0) :: rest) =
            syncCopyGo Hf sr rr src
              { rep := s.rep ++ [(q, Entry.file c)], changes := true,
                log := s.log ++ [Event.copied (sr ++ q) (rr ++ q)] } rest := by
          simp [syncCopyGo, hreg, hex, hcopy]
        rw [hgo]
        have hlookq : lookupEntry (s.rep ++ [(q, Entry.file c)]) q = some (Entry.file c) := by
          rw [lookup_append_none _ hnone, lookupEntry_cons, if_pos rfl]
        have hlook_ne : ∀ q', q ≠ q' →
            lookupEntry (s.rep ++ [(q, Entry.file c)]) q' = lookupEntry s.rep q' :=
          fun q' h => lookup_append_single_ne h
        have hcompat1 : Compat src (s.rep ++ [(q, Entry.file c)]) := by
          intro p es er' hs hr
          by_cases hpq : q = p
          · subst hpq
            rw [hlookq] at hr
            injection hr with hr'
            rw [hc] at hs
            injection hs with hs'
            rw [← hs', ← hr']
            rfl
          · rw [hlook_ne p hpq] at hr
            exact hcompat p es er' hs hr
        have hkeys1 : KeysNE (s.rep ++ [(q, Entry.file c)]) := by
          intro p e hm
          rcases List.mem_append.mp hm with h | h
          · exact hkeys p e h
          · simp only [List.mem_singleton, Prod.mk.injEq] at h
            rw [h.1]; exact hqne
        have hdirs1 : ∀ q', lookupEntry src q' = some Entry.dir →
            lookupEntry (s.rep ++ [(q, Entry.file c)]) q' = some Entry.dir := by
          intro q' hq'
          by_cases hpq : q = q'
          · subst hpq
            rw [hc] at hq'
            exact absurd hq' (by simp)
          · rw [hlook_ne q' hpq]
            exact hdirs q' hq'
        obtain ⟨c1', c2', c3', c4', c5'⟩ := ih
          { rep := s.rep ++ [(q, Entry.file c)], changes := true,
            log := s.log ++ [Event.copied (sr ++ q) (rr ++ q)] }
          hmem' hparents hcompat1 hkeys1 hdirs1
        refine ⟨c1', c2', c3', ?_, ?_⟩
        · intro q'
          rcases c4' q' with h4 | ⟨c3, hsrc3, hrep3⟩
          · by_cases hpq : q = q'
            · subst hpq
              rw [h4, hlookq]
              exact Or.inr ⟨c, hc, rfl⟩
            · rw [h4, hlook_ne q' hpq]
              exact Or.inl rfl
          · exact Or.inr ⟨c3, hsrc3, hrep3⟩
        · intro q' cf hm
          rcases List.mem_cons.mp hm with heq | hm'
          · rw [Prod.mk.injEq] at heq
            obtain ⟨hq2, hcf⟩ := heq
            have hcf2 : cf = c := by
              rw [he0] at hcf; injection hcf
            rw [hq2, hcf2]
            rcases c4' q with h4 | ⟨c3, hsrc3, hrep3⟩
            · exact ⟨c, by rw [h4, hlookq], rfl⟩
            · have hc3 : c3 = c := by
                rw [hc] at hsrc3
                injection hsrc3 with h'
                injection h' with h''
                exact h''.symm
              rw [hc3] at hrep3
              exact ⟨c, hrep3, rfl⟩
          · exact c5' q' cf hm'
    · -- not a regular file: skip
      have hgo : syncCopyGo Hf sr rr src s ((q, e0) :: rest) =
          syncCopyGo Hf sr rr src s rest := by
        simp [syncCopyGo, hreg]
      rw [hgo]
      obtain ⟨c1', c2', c3', c4', c5'⟩ := ih s hmem' hparents hcompat hkeys hdirs
      refine ⟨c1', c2', c3', c4', ?_⟩
      intro q' cf hm
      rcases List.mem_cons.mp hm with heq | hm'
      · exfalso
        rw [Prod.mk.injEq] at heq
        apply hreg
        rw [isRegularFile_iff]
        refine ⟨cf, ?_⟩
        rw [hsrcq, ← heq.2]
      · exact c5' q' cf hm'

theorem copyGo_noop (Hf : Bytes → String) (sr rr : Path) (src : Tree) :
    ∀ (rest : List (Path × Entry)) (s : St),
      (∀ p e, (p, e) ∈ rest → lookupEntry src p = some e) →
      (∀ q c, lookupEntry src q = some (Entry.file c) →
        ∃ c', lookupEntry s.rep q = some (Entry.file c') ∧ Hf c' = Hf c) →
      syncCopyGo Hf sr rr src s rest = s := by
  intro rest
  induction rest with
  | nil => intro s _ _; rfl
  | cons qe rest ih =>
    obtain ⟨q, e0⟩ := qe
    intro s hmem hfiles
    have hmem' : ∀ p e, (p, e) ∈ rest → lookupEntry src p = some e :=
      fun p e h => hmem p e (List.mem_cons_of_mem _ h)
    by_cases hreg : isRegularFile src q = true
    · obtain ⟨c, hc⟩ := isRegularFile_iff.mp hreg
      obtain ⟨c', hrep, hH⟩ := hfiles q c hc
      have hex : existsP s.rep q = true := by
        rw [existsP, hrep]; rfl
      have hhash : computeFileHash Hf src q = computeFileHash Hf s.rep q := by
        rw [computeFileHash, computeFileHash, readFileBytes_of_file hc,
          readFileBytes_of_file hrep, hH]
      calc syncCopyGo Hf sr rr src s ((q, e0) :: rest)
          = syncCopyGo Hf sr rr src s rest := by
            simp [syncCopyGo, hreg, hex, hhash]
        _ = s := ih s hmem' hfiles
    · calc syncCopyGo Hf sr rr src s ((q, e0) :: rest)
          = syncCopyGo Hf sr rr src s rest := by simp [syncCopyGo, hreg]
        _ = s := ih s hmem' hfiles

/-! ### Prune Reconciler: specification of syncDelete -/

theorem collectRemovals_mem {src rep : Tree} {p : Path} :
    p ∈ collectRemovals src rep ↔ ∃ e, (p, e) ∈ rep ∧ existsP src p = false := by
  rw [collectRemovals]
  constructor
  · intro h
    rw [List.mem_map] at h
    obtain ⟨⟨q, e⟩, hm, heq⟩ := h
    obtain ⟨hmem, hf⟩ := List.mem_filter.mp hm
    simp only at heq
    subst heq
    refine ⟨e, hmem, ?_⟩
    revert hf
    cases existsP src q <;> simp
  · rintro ⟨e, hmem, hst⟩
    rw [List.mem_map]
    refine ⟨(p, e), List.mem_filter.mpr ⟨hmem, ?_⟩, rfl⟩
    rw [hst]
    rfl

theorem applyRemovals_rep (rr : Path) :
    ∀ (R : List Path) (s : St),
      (applyRemovals rr s R).rep =
        s.rep.filter (fun qe => R.all (fun p => !(prefixOf p qe.1))) := by
  intro R
  induction R with
  | nil =>
    intro s
    show s.rep = _
    rw [show (fun qe : Path × Entry => List.all [] (fun p => !(prefixOf p qe.1))) =
        (fun _ => true) from rfl]
    exact (List.filter_true s.rep).symm
  | cons p R ih =>
    intro s
    show (applyRemovals rr
      { rep := remove_all s.rep p, changes := true,
        log := s.log ++ [Event.removed (rr ++ p)] } R).rep = _
    rw [ih]
    show (remove_all s.rep p).filter _ = _
    rw [remove_all, List.filter_filter]
    refine List.filter_congr ?_
    intro qe _
    rw [List.all_cons, Bool.and_comm]

theorem applyRemovals_changes_log (rr : Path) :
    ∀ (R : List Path) (s : St),
      (applyRemovals rr s R).changes = (if R = [] then s.changes else true) ∧
      (applyRemovals rr s R).log = s.log ++ R.map (fun p => Event.removed (rr ++ p)) := by
  intro R
  induction R with
  | nil => intro s; exact ⟨rfl, by simp [applyRemovals]⟩
  | cons p R ih =>
    intro s
    rw [applyRemovals]
    obtain ⟨h1, h2⟩ := ih
      { rep := remove_all s.rep p, changes := true,
        log := s.log ++ [Event.removed (rr ++ p)] }
    constructor
    · rw [h1]
      simp
    · rw [h2]
      simp

theorem syncDelete_lookup (rr : Path) (src : Tree) (s : St)
    (hanc : ∀ p e, lookupEntry src p = some e → ∀ a, a ≠ [] → a <+: p →
      existsP src a = true)
    (hkeys : KeysNE s.rep) :
    ∀ q, lookupEntry (syncDelete rr src s).rep q =
      if existsP src q = true then lookupEntry s.rep q else none := by
  intro q
  simp only [syncDelete]
  rw [applyRemovals_rep]
  by_cases hq : existsP src q = true
  · rw [if_pos hq]
    cases hl : lookupEntry s.rep q with
    | none => exact lookup_filter_none hl
    | some e =>
      refine lookup_filter_some hl ?_
      simp only
      rw [List.all_eq_true]
      intro p hp
      obtain ⟨ep, hmem, hst⟩ := collectRemovals_mem.mp hp
      cases hpf : prefixOf p q with
      | false => rfl
      | true =>
        exfalso
        have hpre : p <+: q := (prefixOf_iff p q).mp hpf
        have hne : p ≠ [] := hkeys p ep hmem
        obtain ⟨eq', heq⟩ := existsP_iff.mp hq
        have := hanc q eq' heq p hne hpre
        rw [hst] at this
        exact absurd this (by simp)
  · rw [if_neg hq]
    have hq' : existsP src q = false := by revert hq; cases existsP src q <;> simp
    cases hl : lookupEntry s.rep q with
    | none => exact lookup_filter_none hl
    | some e =>
      have hmem : (q, e) ∈ s.rep := lookup_mem hl
      have hqR : q ∈ collectRemovals src s.rep := collectRemovals_mem.mpr ⟨e, hmem, hq'⟩
      refine lookup_filter_none_key ?_
      intro e'
      simp only
      rw [List.all_eq_false]
      refine ⟨q, hqR, ?_⟩
      rw [prefixOf_refl]
      simp

theorem syncDelete_noop (rr : Path) (src : Tree) (s : St)
    (h : ∀ p e, (p, e) ∈ s.rep → existsP src p = true) :
    syncDelete rr src s = s := by
  have hcol : collectRemovals src s.rep = [] := by
    rw [collectRemovals]
    have hf : s.rep.filter (fun qe => !(existsP src qe.1)) = [] := by
      rw [List.filter_eq_nil_iff]
      intro qe hm
      obtain ⟨q, e⟩ := qe
      rw [h q e hm]
      simp
    rw [hf]
    rfl
  simp only [syncDelete, hcol]
  rfl

/-! ### Events appended by a cycle -/

theorem subdirsGo_log (rr : Path) (src : Tree) :
    ∀ (rest : List (Path × Entry)) (s : St),
      ∀ ev ∈ (syncSubdirsGo rr src s rest).log, ev ∈ s.log ∨ eventOkB rr ev = true := by
  intro rest
  induction rest with
  | nil => intro s ev h; exact Or.inl h
  | cons qe rest ih =>
    obtain ⟨q, e0⟩ := qe
    intro s ev hev
    by_cases hdir : isDirectoryP src q = true
    · by_cases hex : existsP s.rep q = true
      · rw [show syncSubdirsGo rr src s ((q, e0) :: rest) = syncSubdirsGo rr src s rest from by
          simp [syncSubdirsGo, hdir, hex]] at hev
        exact ih s ev hev
      · cases hcr : create_directory s.rep q with
        | some t =>
          rw [show syncSubdirsGo rr src s ((q, e0) :: rest) =
              syncSubdirsGo rr src
                { rep := t, changes := true,
                  log := s.log ++ [Event.createdDir (rr ++ q)] } rest from by
            simp [syncSubdirsGo, hdir, hex, hcr]] at hev
          rcases ih _ ev hev with h | h
          · rcases List.mem_append.mp h with h | h
            · exact Or.inl h
            · rw [List.mem_singleton] at h
              subst h
              exact Or.inr (by rw [eventOkB, prefixOf_append])
          · exact Or.inr h
        | none =>
          rw [show syncSubdirsGo rr src s ((q, e0) :: rest) =
              { s with log := s.log ++ [Event.fsError] } from by
            simp [syncSubdirsGo, hdir, hex, hcr]] at hev
          rcases List.mem_append.mp hev with h | h
          · exact Or.inl h
          · rw [List.mem_singleton] at h
            subst h
            exact Or.inr rfl
    · rw [show syncSubdirsGo rr src s ((q, e0) :: rest) = syncSubdirsGo rr src s rest from by
        simp [syncSubdirsGo, hdir]] at hev
      exact ih s ev hev

theorem copyGo_log (Hf : Bytes → String) (sr rr : Path) (src : Tree) :
    ∀ (rest : List (Path × Entry)) (s : St),
      ∀ ev ∈ (syncCopyGo Hf sr rr src s rest).log, ev ∈ s.log ∨ eventOkB rr ev = true := by
  intro rest
  induction rest with
  | nil => intro s ev h; exact Or.inl h
  | cons qe rest ih =>
    obtain ⟨q, e0⟩ := qe
    intro s ev hev
    by_cases hreg : isRegularFile src q = true
    · by_cases hsc : (if existsP s.rep q then
          decide (computeFileHash Hf src q ≠ computeFileHash Hf s.rep q)
        else true) = true
      · cases hcp : copy_file s.rep q (readFileBytes src q) with
        | some t =>
          rw [show syncCopyGo Hf sr rr src s ((q, e0) :: rest) =
              syncCopyGo Hf sr rr src
                { rep := t, changes := true,
                  log := s.log ++ [Event.copied (sr ++ q) (rr ++ q)] } rest from by
            simp only [syncCopyGo, hreg, if_true, hsc, hcp]] at hev
          rcases ih _ ev hev with h | h
          · rcases List.mem_append.mp h with h | h
            · exact Or.inl h
            · rw [List.mem_singleton] at h
              subst h
              exact Or.inr (by rw [eventOkB, prefixOf_append])
          · exact Or.inr h
        | none =>
          rw [show syncCopyGo Hf sr rr src s ((q, e0) :: rest) =
              { s with log := s.log ++ [Event.fsError] } from by
            simp only [syncCopyGo, hreg, if_true, hsc, hcp]] at hev
          rcases List.mem_append.mp hev with h | h
          · exact Or.inl h
          · rw [List.mem_singleton] at h
            subst h
            exact Or.inr rfl
      · have hsc' : (if existsP s.rep q then
            decide (computeFileHash Hf src q ≠ computeFileHash Hf s.rep q)
          else true) = false := by
          revert hsc
          cases (if existsP s.rep q then
            decide (computeFileHash Hf src q ≠ computeFileHash Hf s.rep q)
          else true) <;> simp
        have hex : existsP s.rep q = true := by
          by_contra h
          have hf : existsP s.rep q = false := by revert h; cases existsP s.rep q <;> simp
          rw [hf] at hsc'
          simp at hsc'
        have hhash : computeFileHash Hf src q = computeFileHash Hf s.rep q := by
          rw [hex] at hsc'
          simpa using hsc'
        rw [show syncCopyGo Hf sr rr src s ((q, e0) :: rest) =
            syncCopyGo Hf sr rr src s rest from by
          simp [syncCopyGo, hreg, hex, hhash]] at hev
        exact ih s ev hev
    · rw [show syncCopyGo Hf sr rr src s ((q, e0) :: rest) =
          syncCopyGo Hf sr rr src s rest from by simp [syncCopyGo, hreg]] at hev
      exact ih s ev hev

theorem syncDelete_log (rr : Path) (src : Tree) (s : St) :
    ∀ ev ∈ (syncDelete rr src s).log, ev ∈ s.log ∨ eventOkB rr ev = true := by
  intro ev hev
  rw [syncDelete, (applyRemovals_changes_log rr (collectRemovals src s.rep) s).2] at hev
  rcases List.mem_append.mp hev with h | h
  · exact Or.inl h
  · rw [List.mem_map] at h
    obtain ⟨p, _, heq⟩ := h
    subst heq
    exact Or.inr (by rw [eventOkB, prefixOf_append])

theorem syncFolders_log_ok (Hf : Bytes → String) (sr rr : Path) (src : Tree)
    (rep0 : Option Tree) :
    ∀ ev ∈ (syncFolders Hf sr rr src rep0).log, eventOkB rr ev = true := by
  intro ev hev
  have hstep : ∀ (s0 : St), (∀ e0 ∈ s0.log, eventOkB rr e0 = true) →
      ev ∈ (syncDelete rr src (syncCopy Hf sr rr src (syncSubdirectories rr src s0))).log →
      eventOkB rr ev = true := by
    intro s0 h0 hin
    rcases syncDelete_log rr src _ ev hin with h | h
    · rcases copyGo_log Hf sr rr src src _ ev h with h | h
      · rcases subdirsGo_log rr src src _ ev h with h | h
        · exact h0 ev h
        · exact h
      · exact h
    · exact h
  cases rep0 with
  | none =>
    refine hstep _ ?_ hev
    intro e0 h0
    rw [List.mem_singleton] at h0
    subst h0
    rw [eventOkB, prefixOf_refl]
  | some t =>
    refine hstep _ ?_ hev
    intro e0 h0
    simp at h0

/-! ### Full-cycle postcondition -/

theorem cycle_chain_post (Hf : Bytes → String) (sr rr : Path) (src : Tree) (s0 : St)
    (hwf : wellFormed src = true)
    (hcompat0 : Compat src s0.rep) (hkeys0 : KeysNE s0.rep) :
    (∀ p, lookupEntry src p = some Entry.dir →
      lookupEntry (syncDelete rr src (syncCopy Hf sr rr src
        (syncSubdirectories rr src s0))).rep p = some Entry.dir) ∧
    (∀ p c, lookupEntry src p = some (Entry.file c) →
      ∃ c', lookupEntry (syncDelete rr src (syncCopy Hf sr rr src
        (syncSubdirectories rr src s0))).rep p = some (Entry.file c') ∧ Hf c' = Hf c) ∧
    (∀ p, lookupEntry src p = none →
      lookupEntry (syncDelete rr src (syncCopy Hf sr rr src
        (syncSubdirectories rr src s0))).rep p = none) := by
  have hmemsrc : ∀ p e, (p, e) ∈ src → lookupEntry src p = some e :=
    fun p e h => wf_mem_lookup hwf h
  have hdirs0 : ∀ q, lookupEntry ([] : Tree) q = some Entry.dir →
      lookupEntry s0.rep q = some Entry.dir := by
    intro q h
    exact absurd h (by simp [lookupEntry])
  obtain ⟨cA1, cA2, cA3, cA4, cA5⟩ :=
    subdirsGo_spec rr src src [] s0 hwf hmemsrc hcompat0 hkeys0 hdirs0
  have hdirsA : ∀ q, lookupEntry src q = some Entry.dir →
      lookupEntry (syncSubdirsGo rr src s0 src).rep q = some Entry.dir :=
    fun q h => cA4 q Entry.dir (lookup_mem h) rfl
  have hparents : ∀ p e, lookupEntry src p = some e →
      p ≠ [] ∧ (p.length ≤ 1 ∨ lookupEntry src p.dropLast = some Entry.dir) :=
    fun p e h => wf_lookup_facts hwf h
  obtain ⟨cB1, cB2, cB3, cB4, cB5⟩ :=
    copyGo_spec Hf sr rr src src (syncSubdirsGo rr src s0 src) hmemsrc hparents cA1 cA2 hdirsA
  have hanc : ∀ p e, lookupEntry src p = some e → ∀ a, a ≠ [] → a <+: p →
      existsP src a = true := fun p e h a ha hp => wf_ancestor hwf h ha hp
  have hdel := syncDelete_lookup rr src
    (syncCopyGo Hf sr rr src (syncSubdirsGo rr src s0 src) src) hanc cB2
  refine ⟨?_, ?_, ?_⟩
  · intro p hp
    have hex : existsP src p = true := by rw [existsP, hp]; rfl
    have := hdel p
    rw [if_pos hex] at this
    simp only [syncSubdirectories, syncCopy]
    rw [this]
    exact cB3 p hp
  · intro p c hp
    have hex : existsP src p = true := by rw [existsP, hp]; rfl
    have := hdel p
    rw [if_pos hex] at this
    obtain ⟨c', hc', hH⟩ := cB5 p c (lookup_mem hp)
    refine ⟨c', ?_, hH⟩
    simp only [syncSubdirectories, syncCopy]
    rw [this]
    exact hc'
  · intro p hp
    have hex : existsP src p = false := by rw [existsP, hp]; rfl
    have := hdel p
    rw [if_neg (by rw [hex]; simp)] at this
    simp only [syncSubdirectories, syncCopy]
    rw [this]

theorem cycle_chain_noop (Hf : Bytes → String) (sr rr : Path) (src : Tree) (s : St)
    (hwf : wellFormed src = true)
    (hdirs : ∀ q, lookupEntry src q = some Entry.dir → existsP s.rep q = true)
    (hfiles : ∀ q c, lookupEntry src q = some (Entry.file c) →
      ∃ c', lookupEntry s.rep q = some (Entry.file c') ∧ Hf c' = Hf c)
    (hkeep : ∀ p e, (p, e) ∈ s.rep → existsP src p = true) :
    syncDelete rr src (syncCopy Hf sr rr src (syncSubdirectories rr src s)) = s := by
  have hmemsrc : ∀ p e, (p, e) ∈ src → lookupEntry src p = some e :=
    fun p e h => wf_mem_lookup hwf h
  have hA : syncSubdirectories rr src s = s := by
    rw [syncSubdirectories]
    exact subdirsGo_noop rr src src s hmemsrc hdirs
  rw [hA]
  have hB : syncCopy Hf sr rr src s = s := by
    rw [syncCopy]
    exact copyGo_noop Hf sr rr src src s hmemsrc hfiles
  rw [hB]
  exact syncDelete_noop rr src s hkeep

theorem noOther_lookup {t : Tree} (h : noOther t = true) {p : Path} :
    lookupEntry t p ≠ some Entry.other := by
  intro hl
  have hmem := lookup_mem hl
  have := List.all_eq_true.mp h _ hmem
  simp at this

theorem syncFolders_post (Hf : Bytes → String) (sr rr : Path) (src : Tree)
    (rep0 : Option Tree) (hwf : wellFormed src = true) (hrep : repOk src rep0 = true) :
    (∀ p, lookupEntry src p = some Entry.dir →
      lookupEntry (syncFolders Hf sr rr src rep0).rep p = some Entry.dir) ∧
    (∀ p c, lookupEntry src p = some (Entry.file c) →
      ∃ c', lookupEntry (syncFolders Hf sr rr src rep0).rep p = some (Entry.file c') ∧
        Hf c' = Hf c) ∧
    (∀ p, lookupEntry src p = none →
      lookupEntry (syncFolders Hf sr rr src rep0).rep p = none) := by
  cases rep0 with
  | none =>
    have hcompat0 : Compat src ([] : Tree) := by
      intro p es er _ hr
      simp [lookupEntry] at hr
    have hkeys0 : KeysNE ([] : Tree) := by
      intro p e hm
      simp at hm
    exact cycle_chain_post Hf sr rr src
      { rep := [], changes := true, log := [Event.createdReplicaRoot rr] }
      hwf hcompat0 hkeys0
  | some t =>
    rw [repOk, Bool.and_eq_true] at hrep
    exact cycle_chain_post Hf sr rr src
      { rep := t, changes := false, log := [] }
      hwf (compatB_compat hrep.2) (wf_KeysNE hrep.1)

/-- Claim C1 fails as stated: a kind conflict between the initial replica
and the source (here a replica regular file at a path that is a source
directory) makes the copy of the child file throw, and the cycle ends
with the source path `p/q` still absent from the replica. -/
def c1srcX : Tree := [(["p"], Entry.dir), (["p", "q"], Entry.file [])]

/-- The conflicting initial replica for the C1 counterexample. -/
def c1repX : Tree := [(["p"], Entry.file [7])]

/-- A concrete digest function used to run the embedding on examples;
the convergence theorems hold for every digest function. -/
def hash0 : Bytes → String := fun b => toString b.length

/-- Claim C1, counterexample: for this finite source tree and this
initial replica, after one full cycle the replica's set of relative
paths differs from the source's (the source regular file `p/q` is
missing from the replica, and an error line was logged instead). -/
theorem c1_counterexample :
    isRegularFile c1srcX ["p", "q"] = true ∧
    existsP (syncFolders hash0 ["s"] ["r"] c1srcX (some c1repX)).rep ["p", "q"] = false ∧
    Event.fsError ∈ (syncFolders hash0 ["s"] ["r"] c1srcX (some c1repX)).log := by
  decide

/-- Claim C1 (amended): for a well-formed source tree whose entries are
all regular files or directories, and an initial replica that is absent
or well-formed without kind conflicts against the source, one call of
syncFolders makes the replica's set of relative paths equal the
source's, and the Content Comparator (digest equality, for any digest
function) reports every source regular file equal to its replica copy. -/
theorem c1_convergence (Hf : Bytes → String) (sr rr : Path) (src : Tree)
    (rep0 : Option Tree) (hwf : wellFormed src = true) (hno : noOther src = true)
    (hrep : repOk src rep0 = true) :
    (∀ p, existsP (syncFolders Hf sr rr src rep0).rep p = existsP src p) ∧
    (∀ p, isRegularFile src p = true →
      computeFileHash Hf (syncFolders Hf sr rr src rep0).rep p =
        computeFileHash Hf src p) := by
  obtain ⟨post1, post2, post3⟩ := syncFolders_post Hf sr rr src rep0 hwf hrep
  constructor
  · intro p
    cases hsp : lookupEntry src p with
    | none =>
      rw [existsP, existsP, post3 p hsp, hsp]
    | some e =>
      cases e with
      | dir =>
        rw [existsP, existsP, post1 p hsp, hsp]
      | file c =>
        obtain ⟨c', hc', _⟩ := post2 p c hsp
        rw [existsP, existsP, hc', hsp]
        rfl
      | other =>
        exact absurd hsp (noOther_lookup hno)
  · intro p hp
    obtain ⟨c, hc⟩ := isRegularFile_iff.mp hp
    obtain ⟨c', hc', hH⟩ := post2 p c hc
    rw [computeFileHash, computeFileHash, readFileBytes_of_file hc,
      readFileBytes_of_file hc', hH]

/-- Source tree used by the witnesses of the amended C1 and of C2. -/
def wsrc : Tree := [(["d"], Entry.dir), (["d", "a"], Entry.file [1, 2]),
  (["b"], Entry.file [3])]

/-- Initial replica used by the witnesses of the amended C1 and of C2. -/
def wrep : Tree := [(["stale"], Entry.dir), (["stale", "x"], Entry.file [9])]

/-- Witness for the amended C1 at a concrete source, replica and digest
function. -/
theorem c1_witness :
    wellFormed wsrc = true ∧ noOther wsrc = true ∧ repOk wsrc (some wrep) = true ∧
    existsP (syncFolders hash0 ["s"] ["r"] wsrc (some wrep)).rep ["stale"] =
      existsP wsrc ["stale"] ∧
    isRegularFile wsrc ["b"] = true ∧
    computeFileHash hash0 (syncFolders hash0 ["s"] ["r"] wsrc (some wrep)).rep ["b"] =
      computeFileHash hash0 wsrc ["b"] :=
  ⟨by decide, by decide, by decide,
    (c1_convergence hash0 ["s"] ["r"] wsrc (some wrep) (by decide) (by decide)
      (by decide)).1 ["stale"],
    by decide,
    (c1_convergence hash0 ["s"] ["r"] wsrc (some wrep) (by decide) (by decide)
      (by decide)).2 ["b"] (by decide)⟩

/-- Claim C2: running a second cycle immediately after a first one, with
no source changes in between, performs zero mutations — the change flag
stays false, the log of the second cycle is empty (so no
create-directory, copy-file or remove line), and the replica is
unchanged.  Stated under the same admissibility hypotheses as the
convergence theorem. -/
theorem c2_idempotent (Hf : Bytes → String) (sr rr : Path) (src : Tree)
    (rep0 : Option Tree) (hwf : wellFormed src = true)
    (hrep : repOk src rep0 = true) :
    (syncFolders Hf sr rr src (some (syncFolders Hf sr rr src rep0).rep)).changes
      = false ∧
    (syncFolders Hf sr rr src (some (syncFolders Hf sr rr src rep0).rep)).log = [] ∧
    (syncFolders Hf sr rr src (some (syncFolders Hf sr rr src rep0).rep)).rep =
      (syncFolders Hf sr rr src rep0).rep := by
  obtain ⟨post1, post2, post3⟩ := syncFolders_post Hf sr rr src rep0 hwf hrep
  have hnoop : syncFolders Hf sr rr src (some (syncFolders Hf sr rr src rep0).rep) =
      { rep := (syncFolders Hf sr rr src rep0).rep, changes := false, log := [] } := by
    refine cycle_chain_noop Hf sr rr src
      { rep := (syncFolders Hf sr rr src rep0).rep, changes := false, log := [] }
      hwf ?_ ?_ ?_
    · intro q h
      rw [existsP, post1 q h]
      rfl
    · intro q c h
      exact post2 q c h
    · intro p e hm
      cases hs : lookupEntry src p with
      | some e' => rw [existsP, hs]; rfl
      | none =>
        have := post3 p hs
        have hmem := mem_existsP hm
        rw [existsP, this] at hmem
        exact absurd hmem (by simp)
  rw [hnoop]
  exact ⟨rfl, rfl, rfl⟩

/-- Witness for C2 at a concrete source, replica and digest function. -/
theorem c2_witness :
    wellFormed wsrc = true ∧ repOk wsrc (some wrep) = true ∧
    (syncFolders hash0 ["s"] ["r"] wsrc
      (some (syncFolders hash0 ["s"] ["r"] wsrc (some wrep)).rep)).changes = false ∧
    (syncFolders hash0 ["s"] ["r"] wsrc
      (some (syncFolders hash0 ["s"] ["r"] wsrc (some wrep)).rep)).log = [] :=
  ⟨by decide, by decide,
    (c2_idempotent hash0 ["s"] ["r"] wsrc (some wrep) (by decide) (by decide)).1,
    (c2_idempotent hash0 ["s"] ["r"] wsrc (some wrep) (by decide) (by decide)).2.1⟩

/-- Claim C3: after a cycle, the completion check logs the completion
line if and only if the counts of files plus directories under the two
roots are equal and the change flag was set; otherwise no completion
line is emitted (the cycle itself never logs one). -/
theorem c3_completion_iff (Hf : Bytes → String) (sr rr : Path) (src : Tree)
    (rep0 : Option Tree) :
    (Event.completion ∈ (checkSyncCompletion src (syncFolders Hf sr rr src rep0)).log) ↔
    (countFilesAndDirectories src =
        countFilesAndDirectories (syncFolders Hf sr rr src rep0).rep ∧
      (syncFolders Hf sr rr src rep0).changes = true) := by
  have hnc : Event.completion ∉ (syncFolders Hf sr rr src rep0).log := by
    intro h
    have := syncFolders_log_ok Hf sr rr src rep0 Event.completion h
    simp [eventOkB] at this
  rw [checkSyncCompletion]
  by_cases hcond : countFilesAndDirectories src =
      countFilesAndDirectories (syncFolders Hf sr rr src rep0).rep ∧
      (syncFolders Hf sr rr src rep0).changes = true
  · rw [if_pos hcond]
    show Event.completion ∈ (syncFolders Hf sr rr src rep0).log ++ [Event.completion] ↔ _
    rw [List.mem_append, List.mem_singleton]
    constructor
    · intro _; exact hcond
    · intro _; exact Or.inr rfl
  · rw [if_neg hcond]
    constructor
    · intro h; exact absurd h hnc
    · intro h; exact absurd h hcond

/-- Inputs of the C4 counterexample: the copy of `a` throws (destination
occupied by a directory, digests differ), `b` comes later in the
enumeration and needs a copy. -/
def c4src : Tree := [(["a"], Entry.file [0]), (["b"], Entry.file [])]

/-- Conflicting replica for the C4 counterexample. -/
def c4rep : Tree := [(["a"], Entry.dir)]

/-- Claim C4, counterexample: a failure on the first file is caught and
logged, but the Copy Reconciler does not proceed to the next file of the
enumeration — the missing regular file `b` is still absent from the
replica after the phase. -/
theorem c4_counterexample :
    isRegularFile c4src ["b"] = true ∧
    existsP c4rep ["b"] = false ∧
    Event.fsError ∈
      (syncCopy hash0 ["s"] ["r"] c4src { rep := c4rep, changes := false, log := [] }).log ∧
    existsP (syncCopy hash0 ["s"] ["r"] c4src
      { rep := c4rep, changes := false, log := [] }).rep ["b"] = false := by
  decide

/-- Claim C4 (amended): an I/O failure while copying one file is caught
at the boundary of the whole copy loop and logged once, and the
remaining files of the enumeration are abandoned for that cycle — the
result of the phase does not depend on the entries after the failing
one, and nothing further is copied (the cycle then proceeds to the
Prune Reconciler). -/
theorem c4_copy_failure_aborts (Hf : Bytes → String) (sr rr : Path) (src : Tree)
    (s : St) (p : Path) (e : Entry) (rest : List (Path × Entry))
    (hreg : isRegularFile src p = true)
    (hneed : existsP s.rep p = false ∨
      computeFileHash Hf src p ≠ computeFileHash Hf s.rep p)
    (hfail : copy_file s.rep p (readFileBytes src p) = none) :
    syncCopyGo Hf sr rr src s ((p, e) :: rest) =
      { s with log := s.log ++ [Event.fsError] } := by
  have hsc : (if existsP s.rep p then
      decide (computeFileHash Hf src p ≠ computeFileHash Hf s.rep p)
    else true) = true := by
    rcases hneed with h | h
    · rw [h]
      simp
    · cases hex : existsP s.rep p
      · simp
      · simp [h]
  simp only [syncCopyGo, hreg, if_true, hsc, hfail]

/-- Witness for the amended C4 at the counterexample's inputs. -/
theorem c4_witness :
    isRegularFile c4src ["a"] = true ∧
    computeFileHash hash0 c4src ["a"] ≠
      computeFileHash hash0 c4rep ["a"] ∧
    copy_file c4rep ["a"] (readFileBytes c4src ["a"]) = none ∧
    syncCopyGo hash0 ["s"] ["r"] c4src { rep := c4rep, changes := false, log := [] }
        ((["a"], Entry.file [0]) :: [(["b"], Entry.file [])]) =
      { rep := c4rep, changes := false, log := [Event.fsError] } :=
  ⟨by decide, by decide, by decide,
   c4_copy_failure_aborts hash0 ["s"] ["r"] c4src
     { rep := c4rep, changes := false, log := [] } ["a"] (Entry.file [0])
     [(["b"], Entry.file [])] (by decide) (Or.inr (by decide)) (by decide)⟩

/-- Filesystem of the C5 counterexample: only an empty file `b` exists. -/
def c5fs : Tree := [(["b"], Entry.file [])]

/-- Claim C5, counterexample: `computeFileHash` does not surface an I/O
error on the nonexistent (unreadable) path `a`; it silently returns a
digest, and that digest equals the digest of the existing empty file
`b` — an unreadable file silently compares equal to another file. -/
theorem c5_counterexample :
    isRegularFile c5fs ["a"] = false ∧
    isRegularFile c5fs ["b"] = true ∧
    computeFileHash hash0 c5fs ["a"] = computeFileHash hash0 c5fs ["b"] := by
  decide

/-- Claim C5 (amended): the hash computation never surfaces an error to
its caller — for every path that does not denote an existing regular
file it reads an empty buffer and silently returns the digest of the
empty byte string, so an unreadable file compares equal to an empty or
likewise-unreadable file. -/
theorem c5_unreadable_hashes_empty (Hf : Bytes → String) (t : Tree) (p : Path)
    (h : isRegularFile t p = false) : computeFileHash Hf t p = Hf [] := by
  rw [computeFileHash, readFileBytes]
  cases hl : lookupEntry t p with
  | none => rfl
  | some e =>
    cases e with
    | file c =>
      rw [isRegularFile, hl] at h
      exact absurd h (by simp)
    | dir => rfl
    | other => rfl

/-- Witness for the amended C5 at a concrete input. -/
theorem c5_witness :
    isRegularFile c5fs ["a"] = false ∧
    computeFileHash hash0 c5fs ["a"] = hash0 [] :=
  ⟨by decide, c5_unreadable_hashes_empty hash0 c5fs ["a"] (by decide)⟩

/-- Claim C6: the Prune Reconciler first collects exactly the replica
entries without a source counterpart (the collection reads only the
pre-removal replica), each removal erases the whole subtree below the
collected path, and removing a path already erased as part of an
ancestor's removal is a no-op (and, `remove_all` being total, never an
error). -/
theorem c6_prune_spec (rr : Path) (src : Tree) (s : St) :
    (∀ p, p ∈ collectRemovals src s.rep ↔
      ∃ e, (p, e) ∈ s.rep ∧ existsP src p = false) ∧
    (∀ p, p ∈ collectRemovals src s.rep → ∀ q, prefixOf p q = true →
      lookupEntry (syncDelete rr src s).rep q = none) ∧
    (∀ (t : Tree) (a b : Path), prefixOf a b = true →
      remove_all (remove_all t a) b = remove_all t a) := by
  refine ⟨fun p => collectRemovals_mem, ?_, ?_⟩
  · intro p hp q hpq
    simp only [syncDelete]
    rw [applyRemovals_rep]
    refine lookup_filter_none_key ?_
    intro e'
    simp only
    rw [List.all_eq_false]
    exact ⟨p, hp, by rw [hpq]; simp⟩
  · intro t a b hab
    show (remove_all t a).filter (fun qe => !(prefixOf b qe.1)) = remove_all t a
    refine List.filter_eq_self.mpr ?_
    intro qe hqe
    obtain ⟨_, hka⟩ := List.mem_filter.mp hqe
    cases hpb : prefixOf b qe.1
    · rfl
    · exfalso
      have hbq : b <+: qe.1 := (prefixOf_iff _ _).mp hpb
      have hab' : a <+: b := (prefixOf_iff _ _).mp hab
      have : prefixOf a qe.1 = true := (prefixOf_iff _ _).mpr (hab'.trans hbq)
      rw [this] at hka
      exact absurd hka (by simp)

/-- Source of the C6 witness (keeps `keep`, `d` and `d/x` are stale). -/
def c6src : Tree := [(["keep"], Entry.file [])]

/-- Replica of the C6 witness. -/
def c6rep : Tree := [(["d"], Entry.dir), (["d", "x"], Entry.file []),
  (["keep"], Entry.file [])]

/-- Witness for C6 at concrete trees. -/
theorem c6_witness :
    (["d"] ∈ collectRemovals c6src c6rep ↔
      ∃ e, (["d"], e) ∈ c6rep ∧ existsP c6src ["d"] = false) ∧
    ["d"] ∈ collectRemovals c6src c6rep ∧
    prefixOf ["d"] ["d", "x"] = true ∧
    lookupEntry (syncDelete ["r"] c6src
      { rep := c6rep, changes := false, log := [] }).rep ["d", "x"] = none ∧
    remove_all (remove_all c6rep ["d"]) ["d", "x"] = remove_all c6rep ["d"] :=
  ⟨(c6_prune_spec ["r"] c6src { rep := c6rep, changes := false, log := [] }).1 ["d"],
   by decide, by decide,
   (c6_prune_spec ["r"] c6src { rep := c6rep, changes := false, log := [] }).2.1
     ["d"] (by decide) ["d", "x"] (by decide),
   (c6_prune_spec ["r"] c6src { rep := c6rep, changes := false, log := [] }).2.2
     c6rep ["d"] ["d", "x"] (by decide)⟩

/-- Claim C7: the Structure Mirror never deletes a replica entry, it
only adds missing source directories (each creation adds exactly the
named directory, never a parent chain), after one run every source
directory exists in the replica (the enumeration lists parents before
children, so the immediate creation suffices), and re-running it on the
already-mirrored structure is a no-op. -/
theorem c7_structure_mirror (rr : Path) (src rep : Tree) (ch : Bool) (lg : List Event)
    (hwf : wellFormed src = true) (hwfr : wellFormed rep = true)
    (hcb : compatB src rep = true) :
    (∀ p v, lookupEntry rep p = some v →
      lookupEntry (syncSubdirectories rr src
        { rep := rep, changes := ch, log := lg }).rep p = some v) ∧
    (∀ p v, lookupEntry (syncSubdirectories rr src
        { rep := rep, changes := ch, log := lg }).rep p = some v →
      lookupEntry rep p = some v ∨
        (v = Entry.dir ∧ lookupEntry rep p = none ∧ isDirectoryP src p = true)) ∧
    (∀ p, isDirectoryP src p = true →
      isDirectoryP (syncSubdirectories rr src
        { rep := rep, changes := ch, log := lg }).rep p = true) ∧
    (∀ (t : Tree) (p : Path) (t' : Tree), create_directory t p = some t' →
      ∀ q, q ≠ p → lookupEntry t' q = lookupEntry t q) ∧
    (syncSubdirectories rr src (syncSubdirectories rr src
        { rep := rep, changes := ch, log := lg }) =
      syncSubdirectories rr src { rep := rep, changes := ch, log := lg }) := by
  have hmemsrc : ∀ p e, (p, e) ∈ src → lookupEntry src p = some e :=
    fun p e h => wf_mem_lookup hwf h
  have hdirs0 : ∀ q, lookupEntry ([] : Tree) q = some Entry.dir →
      lookupEntry rep q = some Entry.dir := by
    intro q h
    simp [lookupEntry] at h
  obtain ⟨cA1, cA2, cA3, cA4, cA5⟩ := subdirsGo_spec rr src src []
    { rep := rep, changes := ch, log := lg } hwf hmemsrc (compatB_compat hcb)
    (wf_KeysNE hwfr) hdirs0
  refine ⟨fun p v h => cA3 p v h, fun p v h => cA5 p v h, ?_, ?_, ?_⟩
  · intro p h
    rw [isDirectoryP_iff]
    exact cA4 p Entry.dir (lookup_mem (isDirectoryP_iff.mp h)) rfl
  · intro t p t' hcd q hq
    rw [create_directory] at hcd
    cases hl : lookupEntry t p with
    | some e =>
      cases e with
      | dir =>
        rw [hl] at hcd
        injection hcd with h'
        rw [← h']
      | file c =>
        rw [hl] at hcd
        exact absurd hcd (by simp)
      | other =>
        rw [hl] at hcd
        exact absurd hcd (by simp)
    | none =>
      rw [hl] at hcd
      cases hpo : parentOk t p
      · rw [hpo] at hcd
        simp at hcd
      · rw [hpo] at hcd
        simp only [if_true] at hcd
        injection hcd with h'
        rw [← h']
        exact lookup_append_single_ne (Ne.symm hq)
  · refine subdirsGo_noop rr src src _ hmemsrc ?_
    intro q h
    show (lookupEntry (syncSubdirsGo rr src
      { rep := rep, changes := ch, log := lg } src).rep q).isSome = true
    rw [cA4 q Entry.dir (lookup_mem h) rfl]
    rfl

/-- Source tree of the C7 witness. -/
def c7src : Tree := [(["d"], Entry.dir), (["d", "e"], Entry.dir)]

/-- Witness for C7 at a concrete source and an empty replica. -/
theorem c7_witness :
    wellFormed c7src = true ∧ wellFormed ([] : Tree) = true ∧
    compatB c7src ([] : Tree) = true ∧
    isDirectoryP c7src ["d", "e"] = true ∧
    isDirectoryP (syncSubdirectories ["r"] c7src
      { rep := ([] : Tree), changes := false, log := [] }).rep ["d", "e"] = true ∧
    syncSubdirectories ["r"] c7src (syncSubdirectories ["r"] c7src
        { rep := ([] : Tree), changes := false, log := [] }) =
      syncSubdirectories ["r"] c7src
        { rep := ([] : Tree), changes := false, log := [] } :=
  ⟨by decide, by decide, by decide, by decide,
   (c7_structure_mirror ["r"] c7src [] false [] (by decide) (by decide)
     (by decide)).2.2.1 ["d", "e"] (by decide),
   (c7_structure_mirror ["r"] c7src [] false [] (by decide) (by decide)
     (by decide)).2.2.2.2⟩

/-- Claim C8: the run loop requests a sleep of `interval - elapsed`;
`sleep_for` blocks max(request, 0), so a cycle of duration d < interval
is followed by a wait of exactly interval - d, and a cycle with
d ≥ interval is followed by no wait at all (never a negative sleep). -/
theorem c8_interval_accounting (interval elapsed : ℚ) :
    (elapsed < interval →
      sleepForDuration (remainingSleepRequest interval elapsed) = interval - elapsed) ∧
    (interval ≤ elapsed →
      sleepForDuration (remainingSleepRequest interval elapsed) = 0) := by
  constructor
  · intro h
    rw [sleepForDuration, remainingSleepRequest]
    exact max_eq_left (by linarith)
  · intro h
    rw [sleepForDuration, remainingSleepRequest]
    exact max_eq_right (by linarith)

/-- Witness for C8 at concrete durations 3 < 5 and 7 ≥ 2. -/
theorem c8_witness :
    (3 : ℚ) < 5 ∧ sleepForDuration (remainingSleepRequest 5 3) = 2 ∧
    (2 : ℚ) ≤ 7 ∧ sleepForDuration (remainingSleepRequest 2 7) = 0 :=
  ⟨by norm_num,
   ((c8_interval_accounting 5 3).1 (by norm_num)).trans (by norm_num),
   by norm_num,
   (c8_interval_accounting 2 7).2 (by norm_num)⟩

/-- Claim C9: with the two roots not nested inside each other, every
event a cycle logs is either an error line or a mutation whose target
lies under the replica root, and no logged mutation touches any path
under the source root — the source tree is untouched by any number of
cycles. -/
theorem c9_source_untouched (Hf : Bytes → String) (sr rr : Path) (src : Tree)
    (rep0 : Option Tree) (h1 : prefixOf sr rr = false) (h2 : prefixOf rr sr = false) :
    ∀ ev ∈ (syncFolders Hf sr rr src rep0).log, ∀ q, prefixOf sr q = true →
      touchesPath ev q = false := by
  intro ev hev q hq
  have hok := syncFolders_log_ok Hf sr rr src rep0 ev hev
  have hsrq : sr <+: q := (prefixOf_iff _ _).mp hq
  have hnn1 : ¬sr <+: rr := by
    intro h
    rw [(prefixOf_iff _ _).mpr h] at h1
    exact absurd h1 (by simp)
  have hnn2 : ¬rr <+: sr := by
    intro h
    rw [(prefixOf_iff _ _).mpr h] at h2
    exact absurd h2 (by simp)
  have key : ∀ a : Path, prefixOf rr a = true → (a == q) = false := by
    intro a ha
    have hra : rr <+: a := (prefixOf_iff _ _).mp ha
    rw [beq_eq_false_iff_ne]
    intro haq
    subst haq
    rcases List.prefix_or_prefix_of_prefix hsrq hra with h | h
    · exact hnn1 h
    · exact hnn2 h
  have keyrem : ∀ a : Path, prefixOf rr a = true → prefixOf a q = false := by
    intro a ha
    have hra : rr <+: a := (prefixOf_iff _ _).mp ha
    cases hpa : prefixOf a q
    · rfl
    · exfalso
      have haq : a <+: q := (prefixOf_iff _ _).mp hpa
      rcases List.prefix_or_prefix_of_prefix haq hsrq with h | h
      · exact hnn2 (hra.trans h)
      · rcases List.prefix_or_prefix_of_prefix h hra with h' | h'
        · exact hnn1 h'
        · exact hnn2 h'
  cases ev with
  | createdReplicaRoot a => exact key a hok
  | createdDir a => exact key a hok
  | copied sa d => exact key d hok
  | removed a => exact keyrem a hok
  | fsError => rfl
  | completion => rfl

/-- Witness for C9: a concrete cycle whose only logged mutation is the
creation of `r/d`, which touches no path under the source root `s`. -/
theorem c9_witness :
    prefixOf ["s"] ["r"] = false ∧ prefixOf ["r"] ["s"] = false ∧
    Event.createdDir ["r", "d"] ∈
      (syncFolders hash0 ["s"] ["r"] [(["d"], Entry.dir)] (some [])).log ∧
    prefixOf ["s"] ["s", "x"] = true ∧
    touchesPath (Event.createdDir ["r", "d"]) ["s", "x"] = false :=
  ⟨by decide, by decide, by decide, by decide,
   c9_source_untouched hash0 ["s"] ["r"] [(["d"], Entry.dir)] (some [])
     (by decide) (by decide) (Event.createdDir ["r", "d"]) (by decide)
     ["s", "x"] (by decide)⟩

/-- Claim C10: the count used by the completion check counts exactly the
regular-file and directory entries (other kinds are excluded: counted
entries plus `other` entries add up to all entries), whereas the Prune
Reconciler keeps a replica entry whenever an entry of any kind exists at
the same relative path in the source, even when the kinds differ. -/
theorem filter_length_split {α : Type} (l : List α) (p : α → Bool) :
    (l.filter p).length + (l.filter (fun a => !(p a))).length = l.length := by
  induction l with
  | nil => rfl
  | cons a l ih =>
    rw [List.filter_cons, List.filter_cons]
    cases hpa : p a
    · simp only [Bool.not_false, if_true, if_false, List.length_cons]
      simp
      omega
    · simp only [Bool.not_true, if_true, if_false, List.length_cons]
      simp
      omega

theorem c10_count_and_prune (rr : Path) (src rep : Tree) (ch : Bool) (lg : List Event)
    (hwfs : wellFormed src = true) (hwfr : wellFormed rep = true) :
    (∀ t : Tree, countFilesAndDirectories t +
      (t.filter (fun qe => !(entryCounted qe.2))).length = t.length) ∧
    (∀ p, existsP rep p = true → existsP src p = true →
      existsP (syncDelete rr src { rep := rep, changes := ch, log := lg }).rep p
        = true) := by
  constructor
  · intro t
    exact filter_length_split t _
  · intro p h1 h2
    have hanc : ∀ p e, lookupEntry src p = some e → ∀ a, a ≠ [] → a <+: p →
        existsP src a = true := fun p e h a ha hp => wf_ancestor hwfs h ha hp
    have hdel := syncDelete_lookup rr src { rep := rep, changes := ch, log := lg }
      hanc (wf_KeysNE hwfr)
    have hp := hdel p
    rw [if_pos h2] at hp
    rw [existsP, hp]
    exact h1

/-- Source of the C10 witness: an `other` entry at `a`. -/
def c10src : Tree := [(["a"], Entry.other)]

/-- Replica of the C10 witness: a regular file at `a` (kind differs). -/
def c10rep : Tree := [(["a"], Entry.file [1])]

/-- Witness for C10 at concrete trees with differing kinds at `a`. -/
theorem c10_witness :
    wellFormed c10src = true ∧ wellFormed c10rep = true ∧
    countFilesAndDirectories [(["a"], Entry.other), (["b"], Entry.dir)] +
      ([(["a"], Entry.other), (["b"], Entry.dir)].filter
        (fun qe => !(entryCounted qe.2))).length = 2 ∧
    existsP c10rep ["a"] = true ∧ existsP c10src ["a"] = true ∧
    existsP (syncDelete ["r"] c10src
      { rep := c10rep, changes := false, log := [] }).rep ["a"] = true :=
  ⟨by decide, by decide,
   (c10_count_and_prune ["r"] c10src c10rep false [] (by decide) (by decide)).1
     [(["a"], Entry.other), (["b"], Entry.dir)],
   by decide, by decide,
   (c10_count_and_prune ["r"] c10src c10rep false [] (by decide) (by decide)).2
     ["a"] (by decide) (by decide)⟩

end SyncFolders
